import Mathlib

/-!
Verification development for the link-injection and SEO-metadata core of the
AUTO-blogger repository.

Strings are modelled as `List Char`.  The two injection passes
(`inject_internal_links`, `inject_external_links` in `automation_engine.py`)
are embedded faithfully: the regex `re.split(r'(<h3>.*?</h3>)', ..., DOTALL)`
segmentation becomes `splitByH3`, the external segmentation
`re.split(r'(<h3>.*?</h3>|<a.*?</a>)', ..., IGNORECASE|DOTALL)` becomes
`splitByExtern`, and the per-segment `pattern.subn(repl, part, count=1)` with
pattern `(?<!href=")\b<key>\b` (IGNORECASE) becomes `replGo` (a left-to-right
scan replacing the leftmost case-insensitive whole-word match, with the
optional case-insensitive `href="` look-behind guard).  Word characters are
the ASCII interpretation of the regex class `\w`; inputs of interest are
ASCII.  Python's per-call mutable dedup sets become explicit accumulator
lists.
-/

abbrev Str := List Char

def lowc (c : Char) : Char := c.toLower

def lows (s : Str) : Str := s.map lowc

/-- ASCII reading of the regex word class `\w` used by `\b`. -/
def isWordChar (c : Char) : Bool := c.isAlphanum || c == '_'

def optWord : Option Char → Bool
  | some c => isWordChar c
  | none => false

/-- A `\b` word boundary between a previous and a next character
(out-of-range counts as non-word). -/
def boundaryB (a b : Option Char) : Bool := optWord a != optWord b

/-- Case-insensitive test that `pat` is a prefix of `s`. -/
def icStarts : Str → Str → Bool
  | [], _ => true
  | _ :: _, [] => false
  | p :: ps, c :: cs => (lowc p == lowc c) && icStarts ps cs

/-- Case-insensitively strip `pat` from the front of `s`, returning the
matched original characters and the rest. -/
def icStrip : Str → Str → Option (Str × Str)
  | [], s => some ([], s)
  | _ :: _, [] => none
  | p :: ps, c :: cs =>
      if lowc p == lowc c then
        (icStrip ps cs).map (fun pr => (c :: pr.1, pr.2))
      else none

/-- `href="` reversed, for the look-behind guard `(?<!href=")` (the guard is
compiled with IGNORECASE like the rest of the pattern). -/
def hrefRev : Str := ("href=\"").data.reverse

/-- Try to match `(?<!href=")\b pat \b` (with the look-behind only when
`guard` is true) at the current position; `rev` is the reversed list of
characters already scanned (the text before the position), `s` the text from
the position on.  Returns the matched original text and the rest of `s`. -/
def tryMatch (guard : Bool) (pat rev s : Str) : Option (Str × Str) :=
  if guard && icStarts hrefRev rev then none
  else if boundaryB rev.head? s.head? then
    match icStrip pat s with
    | none => none
    | some (m, rest) =>
        let lastc : Option Char := match m.getLast? with
          | some c => some c
          | none => rev.head?
        if boundaryB lastc rest.head? then some (m, rest) else none
  else none

/-- `pattern.subn(repl, s, count=1)`: replace the leftmost match of
`(?<!href=")\b pat \b` (case-insensitive) by `mk matchedText`, scanning left
to right.  Returns the resulting string and whether a replacement happened. -/
def replGo (guard : Bool) (mk : Str → Str) (pat : Str) : Str → Str → Str × Bool
  | rev, [] =>
    (match tryMatch guard pat rev [] with
      | some (m, rest) => (mk m ++ rest, true)
      | none => ([], false))
  | rev, c :: cs =>
    (match tryMatch guard pat rev (c :: cs) with
      | some (m, rest) => (mk m ++ rest, true)
      | none =>
          let r := replGo guard mk pat (c :: rev) cs
          (c :: r.1, r.2))

/-- Number of positions at which `(?<!href=")\b pat \b` matches. -/
def countIC (guard : Bool) (pat : Str) : Str → Str → Nat
  | rev, [] => (if (tryMatch guard pat rev []).isSome then 1 else 0)
  | rev, c :: cs =>
    (if (tryMatch guard pat rev (c :: cs)).isSome then 1 else 0) + countIC guard pat (c :: rev) cs

/-- First index at which `t` occurs (case-sensitively) in `s`. -/
def findSub (t : Str) : Str → Option Nat
  | [] => if t.isEmpty then some 0 else none
  | c :: cs => if t.isPrefixOf (c :: cs) then some 0 else (findSub t cs).map (· + 1)

/-- First index at which `t` occurs case-insensitively in `s`. -/
def findSubIC (t : Str) : Str → Option Nat
  | [] => if t.isEmpty then some 0 else none
  | c :: cs => if icStarts t (c :: cs) then some 0 else (findSubIC t cs).map (· + 1)

def openH3 : Str := ("<h3>").data
def closeH3 : Str := ("</h3>").data
def openATag : Str := ("<a").data
def closeATag : Str := ("</a>").data

theorem findSub_bound (t : Str) : ∀ s p, findSub t s = some p → p + t.length ≤ s.length := by
  intro s
  induction s with
  | nil =>
      intro p h
      simp only [findSub] at h
      rcases t with _ | ⟨c, cs⟩
      · simp_all
      · simp [List.isEmpty] at h
  | cons c cs ih =>
      intro p h
      simp only [findSub] at h
      by_cases hp : t.isPrefixOf (c :: cs)
      · simp [hp] at h
        subst h
        have := List.IsPrefix.length_le (List.isPrefixOf_iff_prefix.mp hp)
        simpa using this
      · simp [hp] at h
        obtain ⟨q, hq, rfl⟩ := h
        have := ih q hq
        simp [List.length_cons]
        omega

/-- The `<h3>.*?</h3>` block grabber of the internal split: at the current
position, match a literal `<h3>` followed (shortest match) by `</h3>`
(case-sensitive, dot-matches-newline). -/
def grabH3 (s : Str) : Option (Str × Str) :=
  if openH3.isPrefixOf s then
    (findSub closeH3 (s.drop 4)).map (fun q => (s.take (4 + q + 5), s.drop (4 + q + 5)))
  else none

/-- Leftmost `<h3>...</h3>` block, as the regex engine finds it: try a match
at each position from the left.  Returns (text before, block, rest). -/
def scanH3 : Str → Option (Str × Str × Str)
  | [] => none
  | c :: cs =>
      match grabH3 (c :: cs) with
      | some (b, r) => some ([], b, r)
      | none => (scanH3 cs).map (fun x => (c :: x.1, x.2.1, x.2.2))

/-- Generic fueled splitter: repeatedly emit (text, block) pairs found by
`scan`, then the final text.  The fuel only needs to exceed the number of
blocks; callers pass the string length. -/
def splitFuel (scan : Str → Option (Str × Str × Str)) : Nat → Str → List Str
  | 0, s => [s]
  | fuel + 1, s =>
      match scan s with
      | none => [s]
      | some (pre, b, r) => pre :: b :: splitFuel scan fuel r

/-- `re.split(r'(<h3>.*?</h3>)', content, flags=re.DOTALL)`: alternate
non-captured text parts with whole (leftmost, shortest) `<h3>...</h3>` blocks.
Empty text parts are kept, as Python keeps them. -/
def splitByH3 (s : Str) : List Str := splitFuel scanH3 s.length s

/-- The protected-part test of the internal pass: `part.startswith("<h3>")`
(case-sensitive). -/
def isProtH3 (part : Str) : Bool := openH3.isPrefixOf part

/-- The block grabber for the external split: at the current position, try
`<h3>.*?</h3>` then `<a.*?</a>` (both case-insensitive, shortest match).
Returns the block and the rest. -/
def grabBlock (s : Str) : Option (Str × Str) :=
  match (if icStarts openH3 s then
           (findSubIC closeH3 (s.drop 4)).map (fun q => (s.take (4 + q + 5), s.drop (4 + q + 5)))
         else none) with
  | some r => some r
  | none =>
      if icStarts openATag s then
        (findSubIC closeATag (s.drop 2)).map (fun q => (s.take (2 + q + 4), s.drop (2 + q + 4)))
      else none

theorem icStarts_ne_nil {p : Char} {ps s : Str} (h : icStarts (p :: ps) s = true) : s ≠ [] := by
  cases s with
  | nil => simp [icStarts] at h
  | cons c cs => simp

theorem grabBlock_rest_lt {s b r : Str} (h : grabBlock s = some (b, r)) :
    r.length < s.length := by
  unfold grabBlock at h
  by_cases h3 : icStarts openH3 s
  · have hne : s ≠ [] := icStarts_ne_nil (by simpa [openH3] using h3)
    have hpos : 0 < s.length := by cases s <;> simp_all
    simp only [h3, if_true] at h
    cases hq : findSubIC closeH3 (s.drop 4) with
    | none =>
        simp [hq] at h
        by_cases ha : icStarts openATag s
        · simp [ha] at h
          cases hq2 : findSubIC closeATag (s.drop 2) with
          | none => simp [hq2] at h
          | some q2 =>
              simp [hq2] at h
              obtain ⟨_, h2⟩ := h
              subst h2
              simp [List.length_drop]
              omega
        · simp [ha] at h
    | some q =>
        simp [hq] at h
        obtain ⟨_, h2⟩ := h
        subst h2
        simp [List.length_drop]
        omega
  · have hne : s ≠ [] := by
      intro he
      subst he
      simp [h3, grabBlock, icStarts, openATag] at h
    have hpos : 0 < s.length := by cases s <;> simp_all
    simp only [h3, if_false] at h
    by_cases ha : icStarts openATag s
    · simp [ha] at h
      cases hq2 : findSubIC closeATag (s.drop 2) with
      | none => simp [hq2] at h
      | some q2 =>
          simp [hq2] at h
          obtain ⟨_, h2⟩ := h
          subst h2
          simp [List.length_drop]
          omega
    · simp [ha] at h

/-- Leftmost protected block of the external split: returns
(text before, block, rest).  (`grabBlock []` is `none`, so the empty string
has no block.) -/
def scanExt : Str → Option (Str × Str × Str)
  | [] => none
  | c :: cs =>
      match grabBlock (c :: cs) with
      | some (b, r) => some ([], b, r)
      | none => (scanExt cs).map (fun x => (c :: x.1, x.2.1, x.2.2))

theorem scanExt_rest_lt : ∀ s pre b r, scanExt s = some (pre, b, r) → r.length < s.length := by
  intro s
  induction s with
  | nil => intro pre b r h; simp [scanExt] at h
  | cons c cs ih =>
      intro pre b r h
      rw [scanExt] at h
      cases hg : grabBlock (c :: cs) with
      | some br =>
          obtain ⟨b2, r2⟩ := br
          rw [hg] at h
          simp at h
          obtain ⟨_, h2, h3⟩ := h
          subst h2
          subst h3
          exact grabBlock_rest_lt hg
      | none =>
          rw [hg] at h
          cases hrec : scanExt cs with
          | none => rw [hrec] at h; simp at h
          | some x =>
              obtain ⟨p2, b2, r2⟩ := x
              rw [hrec] at h
              simp at h
              obtain ⟨_, _, h3⟩ := h
              have := ih p2 b2 r2 hrec
              rw [← h3]
              simp
              omega

/-- `re.split(r'(<h3>.*?</h3>|<a.*?</a>)', content, IGNORECASE|DOTALL)`. -/
def splitByExtern (s : Str) : List Str := splitFuel scanExt s.length s

/-- The protected-segment test of the external pass:
`segment.lower().startswith("<h3>") or segment.lower().startswith("<a")`. -/
def isProtExt (part : Str) : Bool := icStarts openH3 part || icStarts openATag part

/-- The replacement text of the internal pass:
`<a href="URL">matched</a>`. -/
def internalAnchor (url m : Str) : Str :=
  ("<a href=\"").data ++ url ++ ("\">").data ++ m ++ ("</a>").data

/-- The replacement text of the external pass:
`<a href="URL" target="_blank" rel="REL">matched</a>` with `REL` equal to
`noopener` for allow-listed URLs and `nofollow noopener` otherwise. -/
def externalAnchor (url : Str) (follow : Bool) (m : Str) : Str :=
  ("<a href=\"").data ++ url ++ ("\" target=\"_blank\" rel=\"").data ++
    (if follow then ("noopener").data else ("nofollow noopener").data) ++
    ("\">").data ++ m ++ ("</a>").data

/-- One `(key, url)` step of the internal pass over the current segment text,
with the call-global set of already consumed lowercased keys. -/
def internalStep (e : Str × Str) (acc : Str × List Str) : Str × List Str :=
  if lows e.1 ∈ acc.2 then acc
  else
    let r := replGo true (internalAnchor e.2) e.1 [] acc.1
    if r.2 then (r.1, lows e.1 :: acc.2) else acc

/-- The internal pass over one rewritable segment. -/
def injectPart (table : List (Str × Str)) (part : Str) (cons : List Str) : Str × List Str :=
  table.foldl (fun acc e => internalStep e acc) (part, cons)

/-- The internal pass over the segment list, threading the consumed-key set. -/
def injectParts (table : List (Str × Str)) : List Str → List Str → List Str × List Str
  | [], cons => ([], cons)
  | p :: ps, cons =>
      if isProtH3 p then
        let r := injectParts table ps cons
        (p :: r.1, r.2)
      else
        let r1 := injectPart table p cons
        let r2 := injectParts table ps r1.2
        (r1.1 :: r2.1, r2.2)

/-- `inject_internal_links` of `automation_engine.py` (the configured
`INTERNAL_LINKS` ordered mapping is passed explicitly). -/
def inject_internal_links (table : List (Str × Str)) (content : Str) : Str :=
  (injectParts table (splitByH3 content) []).1.flatten

/-- One `(phrase, url)` step of the external pass, with the call-global set
of already used target URLs and the do-follow allow-list. -/
def externalStep (fol : List Str) (e : Str × Str) (acc : Str × List Str) : Str × List Str :=
  if e.2 ∈ acc.2 then acc
  else
    let r := replGo false (externalAnchor e.2 (fol.contains e.2)) e.1 [] acc.1
    if r.2 then (r.1, e.2 :: acc.2) else acc

/-- The external pass over one rewritable segment. -/
def injectPartExt (fol : List Str) (table : List (Str × Str)) (part : Str)
    (used : List Str) : Str × List Str :=
  table.foldl (fun acc e => externalStep fol e acc) (part, used)

/-- The external pass over the segment list, threading the used-URL set. -/
def injectPartsExt (fol : List Str) (table : List (Str × Str)) :
    List Str → List Str → List Str × List Str
  | [], used => ([], used)
  | p :: ps, used =>
      if isProtExt p then
        let r := injectPartsExt fol table ps used
        (p :: r.1, r.2)
      else
        let r1 := injectPartExt fol table p used
        let r2 := injectPartsExt fol table ps r1.2
        (r1.1 :: r2.1, r2.2)

/-- `inject_external_links` of `automation_engine.py` (the configured
`EXTERNAL_LINKS` mapping and `DO_FOLLOW_URLS` set are passed explicitly). -/
def inject_external_links (table : List (Str × Str)) (fol : List Str) (content : Str) : Str :=
  (injectPartsExt fol table (splitByExtern content) []).1.flatten

/-- Number of (possibly overlapping) occurrences of `t` in `s`. -/
def countSub (t : Str) : Str → Nat
  | [] => 0
  | c :: cs => (if t.isPrefixOf (c :: cs) then 1 else 0) + countSub t cs

/-- Matches of the internal pattern inside one segment, zero on protected
segments. -/
def internalPartCount (guard : Bool) (pat part : Str) : Nat :=
  if isProtH3 part then 0 else countIC guard pat [] part

/-- Total match count of the internal pattern over the rewritable segments of
`content`; with `guard := false` this counts the plain whole-word
case-insensitive occurrences outside protected segments. -/
def internalTotal (guard : Bool) (pat content : Str) : Nat :=
  ((splitByH3 content).map (internalPartCount guard pat)).sum

/-- Matches of the external pattern inside one segment, zero on protected
segments. -/
def extPartCount (pat part : Str) : Nat :=
  if isProtExt part then 0 else countIC false pat [] part

/-- Total whole-word case-insensitive occurrence count over the rewritable
segments of the external split. -/
def extTotal (pat content : Str) : Nat :=
  ((splitByExtern content).map (extPartCount pat)).sum

/-! ## SEO metadata builder

`generate_seo_title_and_meta` (title-length normalization) is embedded from
`automation_engine.py`.  The builder methods `prepare_seo_data`,
`validate_seo_configuration` and `update_seo_metadata_with_retry` exercised by
`src/tests/test_seo_improvements.py` are absent from the sources, so they are
modelled from the specification (and the concrete key names asserted by the
tests). -/

/-- Whitespace test used by Python `str.strip()` (ASCII cases). -/
def isWs (c : Char) : Bool := c.isWhitespace

/-- Python `s.strip()`. -/
def stripWs (s : Str) : Str :=
  ((s.dropWhile isWs).reverse.dropWhile isWs).reverse

/-- Python `s.rsplit(" ", 1)[0]`: everything before the last space, or the
whole string when there is no space. -/
def cutAtLastSpace (s : Str) : Str :=
  match findSub [' '] s.reverse with
  | none => s
  | some j => s.take (s.length - 1 - j)

/-- The SEO-title length normalization of `generate_seo_title_and_meta`
(`automation_engine.py`): titles longer than 59 characters become
`seo_title[:59].rsplit(" ", 1)[0].strip()`; titles under 50 characters only
trigger a warning and are returned unchanged. -/
def seoNormalizeTitle (t : Str) : Str :=
  if 59 < t.length then stripWs (cutAtLastSpace (t.take 59)) else t

/-- JSON-like payloads for the metadata shapes. -/
inductive Json where
  | str : Str → Json
  | arr : List Json → Json
  | obj : List (Str × Json) → Json

def keyMeta : Str := ("meta").data
def keyAioTitle : Str := ("_aioseop_title").data
def keyAioDesc : Str := ("_aioseop_description").data
def keyAioKeywords : Str := ("_aioseop_keywords").data
def keyAioRoot : Str := ("aioseo_meta_data").data
def keyTitle : Str := ("title").data
def keyDesc : Str := ("description").data
def keyFocusKeyphrase : Str := ("focus_keyphrase").data
def keyKeyphrases : Str := ("keyphrases").data
def keyFocus : Str := ("focus").data
def keyKeyphrase : Str := ("keyphrase").data
def keyAdditional : Str := ("additional").data

/-- Comma-join with `", "`, as Python `", ".join(...)`. -/
def joinComma (l : List Str) : Str := List.intercalate ((", ").data) l

/-- The plugin-shape selector: configuration value `old` selects the legacy
shape, `new` the modern shape. -/
def shapeOld : Str := ("old").data
def shapeNew : Str := ("new").data

/-- Modelled from the spec: `prepare_seo_data` (the engine method exercised by
`src/tests/test_seo_improvements.py` is not present in the sources).  Legacy
(`old`) shape: a single `meta` mapping with the `_aioseop_` title and
description keys, plus `_aioseop_keywords` holding the comma-join of
`[focus_keyphrase] + additional_keyphrases` whenever either keyphrase input is
non-empty (omitted entirely otherwise).  Modern (`new`) shape: a single
`aioseo_meta_data` mapping with `title` and `description`; when a focus
keyphrase is provided it also carries `focus_keyphrase` and a `keyphrases`
object with `focus.keyphrase` and `additional` (a list of `keyphrase`
objects, in input order); when the focus keyphrase is absent neither field is
added, even if additional keyphrases are present. -/
def prepare_seo_data (shape : Str) (seoTitle metaDesc : Str) (focus : Option Str)
    (addl : List Str) : Json :=
  if shape = shapeOld then
    Json.obj [(keyMeta, Json.obj
      ([(keyAioTitle, Json.str seoTitle), (keyAioDesc, Json.str metaDesc)] ++
        (if focus.isSome || !addl.isEmpty then
          [(keyAioKeywords, Json.str (joinComma (focus.toList ++ addl)))]
        else [])))]
  else
    Json.obj [(keyAioRoot, Json.obj
      ([(keyTitle, Json.str seoTitle), (keyDesc, Json.str metaDesc)] ++
        (match focus with
         | some f =>
             [(keyFocusKeyphrase, Json.str f),
              (keyKeyphrases, Json.obj
                [(keyFocus, Json.obj [(keyKeyphrase, Json.str f)]),
                 (keyAdditional,
                   Json.arr (addl.map (fun kp => Json.obj [(keyKeyphrase, Json.str kp)])))])]
         | none => [])))]

/-- Modelled from the spec: `validate_seo_configuration` (the engine method
exercised by `src/tests/test_seo_improvements.py` is not present in the
sources).  False exactly when the plugin-shape value is not one of the two
recognized values (`old`/`new`, the configuration spellings of
legacy/modern) or any of base URL, username, password is missing or empty
(missing is modelled as the empty string); a pure, total function (it cannot
raise and mutates nothing). -/
def validate_seo_configuration (shape baseUrl username password : Str) : Bool :=
  (shape == shapeOld || shape == shapeNew) &&
    !baseUrl.isEmpty && !username.isEmpty && !password.isEmpty

/-- Outcome of one attempt of the publishing client: success, a
transient-timeout-class error, or a non-transient (permanent) failure. -/
inductive AttemptOutcome where
  | success : AttemptOutcome
  | timeout : AttemptOutcome
  | fatal : AttemptOutcome
deriving DecidableEq

/-- Modelled from the spec: the retry loop of
`update_seo_metadata_with_retry` (the engine method exercised by
`src/tests/test_seo_improvements.py` is not present in the sources), at
attempt index `i`.  Up to `maxRetries` attempts; a transient timeout waits
and retries, success returns true immediately, a non-transient failure is
not retried.  Returns the overall result and the number of attempts made. -/
def retryGo (client : Nat → AttemptOutcome) : Nat → Nat → Bool × Nat
  | i, 0 => (false, i)
  | i, rem + 1 =>
      match client i with
      | AttemptOutcome.success => (true, i + 1)
      | AttemptOutcome.timeout =>
          if rem = 0 then (false, i + 1) else retryGo client (i + 1) rem
      | AttemptOutcome.fatal => (false, i + 1)

/-- Modelled from the spec: `update_seo_metadata_with_retry`, returning the
overall boolean result together with the number of attempts performed
(`retryGo` is started at attempt 0 with `maxRetries` attempts remaining). -/
def update_seo_metadata_with_retry (client : Nat → AttemptOutcome) (maxRetries : Nat) :
    Bool × Nat :=
  retryGo client 0 maxRetries

/-! ## Helper lemmas about matching and replacement -/

theorem icStrip_spec : ∀ (pat s m rest : Str), icStrip pat s = some (m, rest) →
    s = m ++ rest ∧ lows m = lows pat := by
  intro pat
  induction pat with
  | nil =>
      intro s m rest h
      simp [icStrip] at h
      obtain ⟨h1, h2⟩ := h
      subst h1; subst h2
      simp [lows]
  | cons p ps ih =>
      intro s m rest h
      cases s with
      | nil => simp [icStrip] at h
      | cons c cs =>
          simp only [icStrip] at h
          by_cases hc : lowc p == lowc c
          · rw [if_pos hc] at h
            cases hrec : icStrip ps cs with
            | none => rw [hrec] at h; simp at h
            | some pr =>
                obtain ⟨m2, rest2⟩ := pr
                rw [hrec] at h
                have h2 : (c :: m2, rest2) = (m, rest) := by simpa using h
                have hm : c :: m2 = m := congrArg Prod.fst h2
                have hr : rest2 = rest := congrArg Prod.snd h2
                obtain ⟨hs, hl⟩ := ih cs m2 rest2 hrec
                subst hm
                subst hr
                constructor
                · rw [hs]; simp
                · have hpc : lowc p = lowc c := eq_of_beq hc
                  simp [lows] at hl ⊢
                  exact ⟨hpc.symm, hl⟩
          · simp [hc] at h

theorem tryMatch_some {g : Bool} {pat rev s m rest : Str}
    (h : tryMatch g pat rev s = some (m, rest)) :
    s = m ++ rest ∧ lows m = lows pat := by
  unfold tryMatch at h
  by_cases h1 : g && icStarts hrefRev rev
  · simp [h1] at h
  · simp only [h1, if_false, Bool.false_eq_true] at h
    by_cases h2 : boundaryB rev.head? s.head?
    · simp only [h2, if_true] at h
      cases hstrip : icStrip pat s with
      | none => rw [hstrip] at h; simp at h
      | some pr =>
          obtain ⟨m2, rest2⟩ := pr
          rw [hstrip] at h
          simp only [] at h
          by_cases h3 : boundaryB (match m2.getLast? with
            | some c => some c
            | none => rev.head?) rest2.head?
          · simp [h3] at h
            obtain ⟨hm, hr⟩ := h
            subst hm
            subst hr
            exact icStrip_spec _ _ _ _ hstrip
          · simp [h3] at h
    · simp [h2] at h

theorem tryMatch_guard_mono {pat rev s : Str} {x : Str × Str}
    (h : tryMatch true pat rev s = some x) : tryMatch false pat rev s = some x := by
  unfold tryMatch at *
  by_cases h1 : icStarts hrefRev rev
  · simp [h1] at h
  · simp [h1] at h ⊢
    exact h

theorem replGo_of_count_zero (g : Bool) (mk : Str → Str) (pat : Str) :
    ∀ s rev, countIC g pat rev s = 0 → replGo g mk pat rev s = (s, false) := by
  intro s
  induction s with
  | nil =>
      intro rev h
      rw [countIC] at h
      rw [replGo]
      cases ht : tryMatch g pat rev [] with
      | some x => rw [ht] at h; simp at h
      | none => simp
  | cons c cs ih =>
      intro rev h
      rw [countIC] at h
      rw [replGo]
      cases ht : tryMatch g pat rev (c :: cs) with
      | some x => rw [ht] at h; simp at h
      | none =>
          rw [ht] at h
          simp only [Option.isSome_none, if_false, Bool.false_eq_true, zero_add] at h
          simp [ih (c :: rev) h]

theorem replGo_hit_of_count_ne_zero (g : Bool) (mk : Str → Str) (pat : Str) :
    ∀ s rev, countIC g pat rev s ≠ 0 → (replGo g mk pat rev s).2 = true := by
  intro s
  induction s with
  | nil =>
      intro rev h
      rw [countIC] at h
      rw [replGo]
      cases ht : tryMatch g pat rev [] with
      | some x => simp
      | none => rw [ht] at h; simp at h
  | cons c cs ih =>
      intro rev h
      rw [countIC] at h
      rw [replGo]
      cases ht : tryMatch g pat rev (c :: cs) with
      | some x => simp
      | none =>
          rw [ht] at h
          simp only [Option.isSome_none, if_false, Bool.false_eq_true, zero_add] at h
          simpa using ih (c :: rev) h

theorem replGo_hit_decomp (g : Bool) (mk : Str → Str) (pat : Str) :
    ∀ s rev, (replGo g mk pat rev s).2 = true →
      ∃ pre m rest, s = pre ++ m ++ rest ∧
        (replGo g mk pat rev s).1 = pre ++ mk m ++ rest ∧ lows m = lows pat := by
  intro s
  induction s with
  | nil =>
      intro rev h
      rw [replGo] at h ⊢
      cases ht : tryMatch g pat rev [] with
      | some x =>
          obtain ⟨m, rest⟩ := x
          obtain ⟨hs, hl⟩ := tryMatch_some ht
          exact ⟨[], m, rest, by simpa using hs, by simp, hl⟩
      | none => rw [ht] at h; simp at h
  | cons c cs ih =>
      intro rev h
      rw [replGo] at h ⊢
      cases ht : tryMatch g pat rev (c :: cs) with
      | some x =>
          obtain ⟨m, rest⟩ := x
          obtain ⟨hs, hl⟩ := tryMatch_some ht
          exact ⟨[], m, rest, by simpa using hs, by simp, hl⟩
      | none =>
          rw [ht] at h
          simp only [] at h
          obtain ⟨pre, m, rest, hs, hr, hl⟩ := ih (c :: rev) (by simpa using h)
          exact ⟨c :: pre, m, rest, by simp [hs], by simp [hr], hl⟩

/-! ## Helper lemmas about the internal pass -/

theorem internalStep_mem {e : Str × Str} {cur : Str} {cons : List Str}
    (h : lows e.1 ∈ cons) : internalStep e (cur, cons) = (cur, cons) := by
  simp [internalStep, h]

theorem internalStep_zero {e : Str × Str} {cur : Str} {cons : List Str}
    (h : countIC true e.1 [] cur = 0) : internalStep e (cur, cons) = (cur, cons) := by
  unfold internalStep
  by_cases hm : lows e.1 ∈ cons
  · simp [hm]
  · simp only [hm, if_false]
    rw [replGo_of_count_zero true (internalAnchor e.2) e.1 cur [] h]
    simp

theorem injectPart_zero {table : List (Str × Str)} :
    ∀ {part : Str} {cons : List Str}, (∀ e ∈ table, countIC true e.1 [] part = 0) →
      injectPart table part cons = (part, cons) := by
  unfold injectPart
  induction table with
  | nil => intro part cons _; simp
  | cons e es ih =>
      intro part cons h
      simp only [List.foldl_cons]
      rw [internalStep_zero (h e (by simp))]
      exact ih (fun e2 he2 => h e2 (by simp [he2]))

theorem injectPart_consumed_single {k u : Str} {part : Str} {cons : List Str}
    (h : lows k ∈ cons) : injectPart [(k, u)] part cons = (part, cons) := by
  unfold injectPart
  simp only [List.foldl_cons, List.foldl_nil]
  exact internalStep_mem h

theorem injectParts_consumed_single {k u : Str} :
    ∀ (parts : List Str) (cons : List Str), lows k ∈ cons →
      injectParts [(k, u)] parts cons = (parts, cons) := by
  intro parts
  induction parts with
  | nil => intro cons _; rfl
  | cons p ps ih =>
      intro cons h
      rw [injectParts]
      by_cases hp : isProtH3 p
      · simp [hp, ih cons h]
      · simp [hp, injectPart_consumed_single h, ih cons h]

theorem injectParts_zero {table : List (Str × Str)} :
    ∀ (parts : List Str) (cons : List Str),
      (∀ p ∈ parts, isProtH3 p = false → ∀ e ∈ table, countIC true e.1 [] p = 0) →
      injectParts table parts cons = (parts, cons) := by
  intro parts
  induction parts with
  | nil => intro cons _; rfl
  | cons p ps ih =>
      intro cons h
      rw [injectParts]
      by_cases hp : isProtH3 p
      · simp [hp, ih cons (fun q hq => h q (by simp [hq]))]
      · rw [injectPart_zero (h p (by simp) (by simpa using hp))]
        simp [hp, ih cons (fun q hq => h q (by simp [hq]))]

theorem injectParts_append {table : List (Str × Str)} :
    ∀ (L M : List Str) (cons : List Str),
      injectParts table (L ++ M) cons =
        ((injectParts table L cons).1 ++ (injectParts table M (injectParts table L cons).2).1,
          (injectParts table M (injectParts table L cons).2).2) := by
  intro L
  induction L with
  | nil => intro M cons; simp [injectParts]
  | cons p ps ih =>
      intro M cons
      by_cases hp : isProtH3 p
      · simp only [List.cons_append, injectParts, hp, if_true, List.append_eq, ih]
      · simp only [List.cons_append, injectParts, hp, if_false, Bool.false_eq_true,
          List.append_eq, ih]

/-! ## Split and reassembly lemmas -/

theorem grabH3_rest_lt {s b r : Str} (h : grabH3 s = some (b, r)) : r.length < s.length := by
  unfold grabH3 at h
  by_cases hp : openH3.isPrefixOf s
  · simp only [hp, if_true] at h
    cases hq : findSub closeH3 (s.drop 4) with
    | none => rw [hq] at h; simp at h
    | some q =>
        rw [hq] at h
        simp at h
        obtain ⟨_, h2⟩ := h
        subst h2
        have hlen : 4 ≤ s.length := by
          have := List.IsPrefix.length_le (List.isPrefixOf_iff_prefix.mp hp)
          simpa [openH3] using this
        simp [List.length_drop]
        omega
  · simp [hp] at h

theorem grabH3_decomp {s b r : Str} (h : grabH3 s = some (b, r)) : b ++ r = s := by
  unfold grabH3 at h
  by_cases hp : openH3.isPrefixOf s
  · simp only [hp, if_true] at h
    cases hq : findSub closeH3 (s.drop 4) with
    | none => rw [hq] at h; simp at h
    | some q =>
        rw [hq] at h
        simp at h
        obtain ⟨h1, h2⟩ := h
        rw [← h1, ← h2, List.take_append_drop]
  · simp [hp] at h

theorem scanH3_rest_lt : ∀ s pre b r, scanH3 s = some (pre, b, r) → r.length < s.length := by
  intro s
  induction s with
  | nil => intro pre b r h; simp [scanH3] at h
  | cons c cs ih =>
      intro pre b r h
      rw [scanH3] at h
      cases hg : grabH3 (c :: cs) with
      | some br =>
          obtain ⟨b2, r2⟩ := br
          rw [hg] at h
          simp at h
          obtain ⟨_, h2, h3⟩ := h
          subst h2
          subst h3
          exact grabH3_rest_lt hg
      | none =>
          rw [hg] at h
          cases hrec : scanH3 cs with
          | none => rw [hrec] at h; simp at h
          | some x =>
              obtain ⟨p2, b2, r2⟩ := x
              rw [hrec] at h
              simp at h
              obtain ⟨_, _, h3⟩ := h
              have := ih p2 b2 r2 hrec
              rw [← h3]
              simp
              omega

theorem scanH3_decomp : ∀ s pre b r, scanH3 s = some (pre, b, r) → pre ++ b ++ r = s := by
  intro s
  induction s with
  | nil => intro pre b r h; simp [scanH3] at h
  | cons c cs ih =>
      intro pre b r h
      rw [scanH3] at h
      cases hg : grabH3 (c :: cs) with
      | some br =>
          obtain ⟨b2, r2⟩ := br
          rw [hg] at h
          simp at h
          obtain ⟨h1, h2, h3⟩ := h
          subst h1
          subst h2
          subst h3
          simpa using grabH3_decomp hg
      | none =>
          rw [hg] at h
          cases hrec : scanH3 cs with
          | none => rw [hrec] at h; simp at h
          | some x =>
              obtain ⟨p2, b2, r2⟩ := x
              rw [hrec] at h
              simp at h
              obtain ⟨h1, h2, h3⟩ := h
              have := ih p2 b2 r2 hrec
              rw [← h1, ← h2, ← h3]
              simpa using congrArg (fun l => c :: l) this

theorem splitFuel_congr (scan : Str → Option (Str × Str × Str))
    (hlt : ∀ s pre b r, scan s = some (pre, b, r) → r.length < s.length) :
    ∀ f1 f2 s, s.length ≤ f1 → s.length ≤ f2 → splitFuel scan f1 s = splitFuel scan f2 s := by
  intro f1
  induction f1 with
  | zero =>
      intro f2 s h1 h2
      have hs : s = [] := List.eq_nil_of_length_eq_zero (by omega)
      subst hs
      cases f2 with
      | zero => rfl
      | succ g =>
          rw [splitFuel, splitFuel]
          cases hscan : scan [] with
          | none => rfl
          | some x =>
              obtain ⟨pre, b, r⟩ := x
              have := hlt [] pre b r hscan
              simp at this
  | succ f ih =>
      intro f2 s h1 h2
      cases f2 with
      | zero =>
          have hs : s = [] := List.eq_nil_of_length_eq_zero (by omega)
          subst hs
          rw [splitFuel, splitFuel]
          cases hscan : scan [] with
          | none => rfl
          | some x =>
              obtain ⟨pre, b, r⟩ := x
              have := hlt [] pre b r hscan
              simp at this
      | succ g =>
          rw [splitFuel, splitFuel]
          cases hscan : scan s with
          | none => rfl
          | some x =>
              obtain ⟨pre, b, r⟩ := x
              have hr := hlt s pre b r hscan
              simp only []
              rw [ih g r (by omega) (by omega)]

theorem splitByH3_none {s : Str} (h : scanH3 s = none) : splitByH3 s = [s] := by
  unfold splitByH3
  cases s with
  | nil => rfl
  | cons c cs =>
      simp only [List.length_cons]
      rw [splitFuel, h]

theorem splitByH3_cons {s pre b r : Str} (h : scanH3 s = some (pre, b, r)) :
    splitByH3 s = pre :: b :: splitByH3 r := by
  unfold splitByH3
  cases s with
  | nil => simp [scanH3] at h
  | cons c cs =>
      simp only [List.length_cons]
      rw [splitFuel, h]
      have hr := scanH3_rest_lt (c :: cs) pre b r h
      simp only [List.length_cons] at hr
      show pre :: b :: splitFuel scanH3 cs.length r = pre :: b :: splitFuel scanH3 r.length r
      rw [splitFuel_congr scanH3 scanH3_rest_lt cs.length r.length r (by omega) (le_refl _)]

theorem splitByH3_flatten_aux : ∀ n s, s.length ≤ n → (splitByH3 s).flatten = s := by
  intro n
  induction n with
  | zero =>
      intro s hs
      have : s = [] := List.eq_nil_of_length_eq_zero (by omega)
      subst this
      rfl
  | succ n ih =>
      intro s hs
      cases hscan : scanH3 s with
      | none => rw [splitByH3_none hscan]; simp
      | some x =>
          obtain ⟨pre, b, r⟩ := x
          rw [splitByH3_cons hscan]
          simp only [List.flatten_cons]
          have hr := scanH3_rest_lt s pre b r hscan
          rw [ih r (by omega)]
          have := scanH3_decomp s pre b r hscan
          simpa using this

theorem splitByH3_flatten (s : Str) : (splitByH3 s).flatten = s :=
  splitByH3_flatten_aux s.length s (le_refl _)

theorem grabBlock_decomp {s b r : Str} (h : grabBlock s = some (b, r)) : b ++ r = s := by
  unfold grabBlock at h
  by_cases h3 : icStarts openH3 s
  · simp only [h3, if_true] at h
    cases hq : findSubIC closeH3 (s.drop 4) with
    | none =>
        simp [hq] at h
        by_cases ha : icStarts openATag s
        · simp [ha] at h
          cases hq2 : findSubIC closeATag (s.drop 2) with
          | none => simp [hq2] at h
          | some q2 =>
              simp [hq2] at h
              obtain ⟨hb, hr⟩ := h
              rw [← hb, ← hr, List.take_append_drop]
        · simp [ha] at h
    | some q =>
        simp [hq] at h
        obtain ⟨hb, hr⟩ := h
        rw [← hb, ← hr, List.take_append_drop]
  · simp only [h3, if_false] at h
    by_cases ha : icStarts openATag s
    · simp [ha] at h
      cases hq2 : findSubIC closeATag (s.drop 2) with
      | none => simp [hq2] at h
      | some q2 =>
          simp [hq2] at h
          obtain ⟨hb, hr⟩ := h
          rw [← hb, ← hr, List.take_append_drop]
    · simp [ha] at h

theorem scanExt_decomp : ∀ s pre b r, scanExt s = some (pre, b, r) → pre ++ b ++ r = s := by
  intro s
  induction s with
  | nil => intro pre b r h; simp [scanExt] at h
  | cons c cs ih =>
      intro pre b r h
      rw [scanExt] at h
      cases hg : grabBlock (c :: cs) with
      | some br =>
          obtain ⟨b2, r2⟩ := br
          rw [hg] at h
          simp at h
          obtain ⟨h1, h2, h3⟩ := h
          subst h1
          subst h2
          subst h3
          simpa using grabBlock_decomp hg
      | none =>
          rw [hg] at h
          cases hrec : scanExt cs with
          | none => rw [hrec] at h; simp at h
          | some x =>
              obtain ⟨p2, b2, r2⟩ := x
              rw [hrec] at h
              simp at h
              obtain ⟨h1, h2, h3⟩ := h
              have := ih p2 b2 r2 hrec
              rw [← h1, ← h2, ← h3]
              simpa using congrArg (fun l => c :: l) this

theorem splitByExtern_none {s : Str} (h : scanExt s = none) : splitByExtern s = [s] := by
  unfold splitByExtern
  cases s with
  | nil => rfl
  | cons c cs =>
      simp only [List.length_cons]
      rw [splitFuel, h]

theorem splitByExtern_cons {s pre b r : Str} (h : scanExt s = some (pre, b, r)) :
    splitByExtern s = pre :: b :: splitByExtern r := by
  unfold splitByExtern
  cases s with
  | nil => simp [scanExt] at h
  | cons c cs =>
      simp only [List.length_cons]
      rw [splitFuel, h]
      have hr := scanExt_rest_lt (c :: cs) pre b r h
      simp only [List.length_cons] at hr
      show pre :: b :: splitFuel scanExt cs.length r = pre :: b :: splitFuel scanExt r.length r
      rw [splitFuel_congr scanExt scanExt_rest_lt cs.length r.length r (by omega) (le_refl _)]

theorem splitByExtern_flatten_aux : ∀ n s, s.length ≤ n → (splitByExtern s).flatten = s := by
  intro n
  induction n with
  | zero =>
      intro s hs
      have : s = [] := List.eq_nil_of_length_eq_zero (by omega)
      subst this
      rfl
  | succ n ih =>
      intro s hs
      cases hscan : scanExt s with
      | none => rw [splitByExtern_none hscan]; simp
      | some x =>
          obtain ⟨pre, b, r⟩ := x
          rw [splitByExtern_cons hscan]
          simp only [List.flatten_cons]
          have hr := scanExt_rest_lt s pre b r hscan
          rw [ih r (by omega)]
          have := scanExt_decomp s pre b r hscan
          simpa using this

theorem splitByExtern_flatten (s : Str) : (splitByExtern s).flatten = s :=
  splitByExtern_flatten_aux s.length s (le_refl _)


/-! ## Guard monotonicity and total-count lemmas -/

theorem countIC_true_zero_of_false_zero (pat : Str) :
    ∀ s rev, countIC false pat rev s = 0 → countIC true pat rev s = 0 := by
  intro s
  induction s with
  | nil =>
      intro rev h
      rw [countIC] at h ⊢
      cases ht : tryMatch true pat rev [] with
      | some x => rw [tryMatch_guard_mono ht] at h; simp at h
      | none => simp
  | cons c cs ih =>
      intro rev h
      rw [countIC] at h ⊢
      cases ht : tryMatch true pat rev (c :: cs) with
      | some x => rw [tryMatch_guard_mono ht] at h; simp at h
      | none =>
          simp only [Option.isSome_none, if_false, Bool.false_eq_true, zero_add]
          cases htf : tryMatch false pat rev (c :: cs) with
          | some x => rw [htf] at h; simp at h
          | none =>
              rw [htf] at h
              simp only [Option.isSome_none, if_false, Bool.false_eq_true, zero_add] at h
              simpa using ih (c :: rev) h

theorem internalTotal_zero_part {g : Bool} {pat content : Str}
    (h : internalTotal g pat content = 0) :
    ∀ p ∈ splitByH3 content, isProtH3 p = false → countIC g pat [] p = 0 := by
  intro p hp hprot
  unfold internalTotal at h
  rw [List.sum_eq_zero_iff] at h
  have := h (internalPartCount g pat p) (List.mem_map_of_mem _ hp)
  unfold internalPartCount at this
  rw [hprot] at this
  simpa using this

theorem injectInternal_noop {table : List (Str × Str)} {content : Str}
    (h : ∀ e ∈ table, internalTotal true e.1 content = 0) :
    inject_internal_links table content = content := by
  unfold inject_internal_links
  rw [injectParts_zero (splitByH3 content) []
    (fun p hp hprot e he => internalTotal_zero_part (h e he) p hp hprot)]
  exact splitByH3_flatten content

/-! ## External-pass helper lemmas -/

theorem externalStep_mem {fol : List Str} {e : Str × Str} {cur : Str} {used : List Str}
    (h : e.2 ∈ used) : externalStep fol e (cur, used) = (cur, used) := by
  simp [externalStep, h]

theorem externalStep_zero {fol : List Str} {e : Str × Str} {cur : Str} {used : List Str}
    (h : countIC false e.1 [] cur = 0) : externalStep fol e (cur, used) = (cur, used) := by
  unfold externalStep
  by_cases hm : e.2 ∈ used
  · simp [hm]
  · simp only [hm, if_false]
    rw [replGo_of_count_zero false (externalAnchor e.2 (fol.contains e.2)) e.1 cur [] h]
    simp

theorem injectPartExt_zero {fol : List Str} {table : List (Str × Str)} :
    ∀ {part : Str} {used : List Str}, (∀ e ∈ table, countIC false e.1 [] part = 0) →
      injectPartExt fol table part used = (part, used) := by
  unfold injectPartExt
  induction table with
  | nil => intro part used _; simp
  | cons e es ih =>
      intro part used h
      simp only [List.foldl_cons]
      rw [externalStep_zero (h e (by simp))]
      exact ih (fun e2 he2 => h e2 (by simp [he2]))

theorem extTotal_zero_part {pat content : Str} (h : extTotal pat content = 0) :
    ∀ p ∈ splitByExtern content, isProtExt p = false → countIC false pat [] p = 0 := by
  intro p hp hprot
  unfold extTotal at h
  rw [List.sum_eq_zero_iff] at h
  have := h (extPartCount pat p) (List.mem_map_of_mem _ hp)
  unfold extPartCount at this
  rw [hprot] at this
  simpa using this

theorem injectPartsExt_zero {fol : List Str} {table : List (Str × Str)} :
    ∀ (parts : List Str) (used : List Str),
      (∀ p ∈ parts, isProtExt p = false → ∀ e ∈ table, countIC false e.1 [] p = 0) →
      injectPartsExt fol table parts used = (parts, used) := by
  intro parts
  induction parts with
  | nil => intro used _; rfl
  | cons p ps ih =>
      intro used h
      rw [injectPartsExt]
      by_cases hp : isProtExt p
      · simp [hp, ih used (fun q hq => h q (by simp [hq]))]
      · rw [injectPartExt_zero (h p (by simp) (by simpa using hp))]
        simp [hp, ih used (fun q hq => h q (by simp [hq]))]

theorem injectExternal_noop {table : List (Str × Str)} {fol : List Str} {content : Str}
    (h : ∀ e ∈ table, extTotal e.1 content = 0) :
    inject_external_links table fol content = content := by
  unfold inject_external_links
  rw [injectPartsExt_zero (splitByExtern content) []
    (fun p hp hprot e he => extTotal_zero_part (h e he) p hp hprot)]
  exact splitByExtern_flatten content

/-! ## Protected segments are passed through unchanged -/

theorem injectParts_protected {table : List (Str × Str)} :
    ∀ (parts : List Str) (cons : List Str),
      List.Forall₂ (fun a b => isProtH3 a = true → b = a) parts
        (injectParts table parts cons).1 := by
  intro parts
  induction parts with
  | nil => intro cons; rw [injectParts]; exact List.Forall₂.nil
  | cons p ps ih =>
      intro cons
      rw [injectParts]
      by_cases hp : isProtH3 p
      · simp only [hp, if_true]
        exact List.Forall₂.cons (fun _ => rfl) (ih cons)
      · simp only [hp, if_false, Bool.false_eq_true]
        exact List.Forall₂.cons (fun hc => absurd hc (by simpa using hp)) (ih _)

theorem injectPartsExt_protected {fol : List Str} {table : List (Str × Str)} :
    ∀ (parts : List Str) (used : List Str),
      List.Forall₂ (fun a b => isProtExt a = true → b = a) parts
        (injectPartsExt fol table parts used).1 := by
  intro parts
  induction parts with
  | nil => intro used; rw [injectPartsExt]; exact List.Forall₂.nil
  | cons p ps ih =>
      intro used
      rw [injectPartsExt]
      by_cases hp : isProtExt p
      · simp only [hp, if_true]
        exact List.Forall₂.cons (fun _ => rfl) (ih used)
      · simp only [hp, if_false, Bool.false_eq_true]
        exact List.Forall₂.cons (fun hc => absurd hc (by simpa using hp)) (ih _)

/-! ## Sum decomposition helper -/

theorem exists_first_nonzero {α : Type} (f : α → Nat) :
    ∀ l : List α, (l.map f).sum ≠ 0 →
      ∃ L x R, l = L ++ x :: R ∧ (∀ y ∈ L, f y = 0) ∧ f x ≠ 0 := by
  intro l
  induction l with
  | nil => intro h; simp at h
  | cons a l2 ih =>
      intro h
      by_cases ha : f a = 0
      · have h2 : (l2.map f).sum ≠ 0 := by
          simp [ha] at h
          simpa using h
        obtain ⟨L, x, R, hl, hL, hx⟩ := ih h2
        exact ⟨a :: L, x, R, by simp [hl], by
          intro y hy
          rcases List.mem_cons.mp hy with h1 | h1
          · rw [h1]; exact ha
          · exact hL y h1, hx⟩
      · exact ⟨[], a, l2, by simp, by simp, ha⟩

/-! ## Congruence: matching depends only on the lowercased pattern -/

theorem icStrip_congr : ∀ (p1 p2 : Str), lows p1 = lows p2 → ∀ s, icStrip p1 s = icStrip p2 s := by
  intro p1
  induction p1 with
  | nil =>
      intro p2 h s
      cases p2 with
      | nil => rfl
      | cons b bs => simp [lows] at h
  | cons a as ih =>
      intro p2 h s
      cases p2 with
      | nil => simp [lows] at h
      | cons b bs =>
          simp only [lows, List.map_cons, List.cons.injEq] at h
          obtain ⟨hab, htail⟩ := h
          cases s with
          | nil => rfl
          | cons c cs =>
              simp only [icStrip]
              rw [hab, ih bs htail cs]

theorem tryMatch_congr (g : Bool) {p1 p2 : Str} (h : lows p1 = lows p2) (rev s : Str) :
    tryMatch g p1 rev s = tryMatch g p2 rev s := by
  unfold tryMatch
  rw [icStrip_congr p1 p2 h s]

theorem replGo_snd_mk_indep (g : Bool) (mk1 mk2 : Str → Str) (pat : Str) :
    ∀ s rev, (replGo g mk1 pat rev s).2 = (replGo g mk2 pat rev s).2 := by
  intro s
  induction s with
  | nil =>
      intro rev
      rw [replGo, replGo]
      cases ht : tryMatch g pat rev [] <;> simp
  | cons c cs ih =>
      intro rev
      rw [replGo, replGo]
      cases ht : tryMatch g pat rev (c :: cs) with
      | some x => simp
      | none => simpa using ih (c :: rev)

theorem replGo_congr (g : Bool) (mk : Str → Str) {p1 p2 : Str} (h : lows p1 = lows p2) :
    ∀ s rev, replGo g mk p1 rev s = replGo g mk p2 rev s := by
  intro s
  induction s with
  | nil =>
      intro rev
      rw [replGo, replGo, tryMatch_congr g h]
  | cons c cs ih =>
      intro rev
      rw [replGo, replGo, tryMatch_congr g h]
      cases ht : tryMatch g p2 rev (c :: cs) with
      | some x => rfl
      | none => simp [ih (c :: rev)]

/-! ## The insertion-only shape of both passes -/

/-- The shape of an inserted opening anchor tag: `<a ` followed by attribute
text and a closing `>`. -/
def OpenTagA (o : Str) : Prop := ∃ inner : Str, o = '<' :: 'a' :: ' ' :: (inner ++ ['>'])

/-- One anchor-wrap insertion: some contiguous substring of the current
string is wrapped in an opening `<a ...>` tag and a closing `</a>` tag. -/
def WrapStep (s t : Str) : Prop :=
  ∃ pre mid post o, OpenTagA o ∧ s = pre ++ mid ++ post ∧
    t = pre ++ o ++ mid ++ closeATag ++ post

theorem internalAnchor_shape (u m : Str) :
    ∃ o, OpenTagA o ∧ internalAnchor u m = o ++ m ++ closeATag := by
  refine ⟨('<' :: 'a' :: ' ' :: ((("href=\"").data ++ u ++ ['\"']) ++ ['>'])), ⟨_, rfl⟩, ?_⟩
  simp [internalAnchor, closeATag]

theorem externalAnchor_shape (u : Str) (fl : Bool) (m : Str) :
    ∃ o, OpenTagA o ∧ externalAnchor u fl m = o ++ m ++ closeATag := by
  refine ⟨('<' :: 'a' :: ' ' ::
    (((("href=\"").data ++ u ++ ("\" target=\"_blank\" rel=\"").data ++
      (if fl then ("noopener").data else ("nofollow noopener").data) ++ ['\"'])) ++ ['>'])),
    ⟨_, rfl⟩, ?_⟩
  by_cases h : fl <;> simp [externalAnchor, h, closeATag]

theorem wrapStep_of_hit {g : Bool} {mk : Str → Str} {pat s : Str}
    (hmk : ∀ m, ∃ o, OpenTagA o ∧ mk m = o ++ m ++ closeATag)
    (h : (replGo g mk pat [] s).2 = true) : WrapStep s (replGo g mk pat [] s).1 := by
  obtain ⟨pre, m, rest, hs, hr, _⟩ := replGo_hit_decomp g mk pat s [] h
  obtain ⟨o, ho, hmkm⟩ := hmk m
  exact ⟨pre, m, rest, o, ho, hs, by rw [hr, hmkm]; simp⟩

theorem wrapStep_append_left {l s t : Str} (h : WrapStep s t) : WrapStep (l ++ s) (l ++ t) := by
  obtain ⟨pre, mid, post, o, ho, hs, ht⟩ := h
  exact ⟨l ++ pre, mid, post, o, ho, by simp [hs], by simp [ht]⟩

theorem wrapStep_append_right {r s t : Str} (h : WrapStep s t) : WrapStep (s ++ r) (t ++ r) := by
  obtain ⟨pre, mid, post, o, ho, hs, ht⟩ := h
  exact ⟨pre, mid, post ++ r, o, ho, by simp [hs], by simp [ht]⟩

theorem rtgWrap_append_left (l : Str) {s t : Str}
    (h : Relation.ReflTransGen WrapStep s t) :
    Relation.ReflTransGen WrapStep (l ++ s) (l ++ t) :=
  Relation.ReflTransGen.lift (fun x => l ++ x) (fun _ _ hw => wrapStep_append_left hw) h

theorem rtgWrap_append_right (r : Str) {s t : Str}
    (h : Relation.ReflTransGen WrapStep s t) :
    Relation.ReflTransGen WrapStep (s ++ r) (t ++ r) :=
  Relation.ReflTransGen.lift (fun x => x ++ r) (fun _ _ hw => wrapStep_append_right hw) h

theorem internalStep_rtg (e : Str × Str) (acc : Str × List Str) :
    Relation.ReflTransGen WrapStep acc.1 (internalStep e acc).1 := by
  obtain ⟨cur, cons⟩ := acc
  unfold internalStep
  by_cases hm : lows e.1 ∈ cons
  · simp only [hm, if_true]
    exact Relation.ReflTransGen.refl
  · simp only [hm, if_false]
    by_cases hhit : (replGo true (internalAnchor e.2) e.1 [] cur).2 = true
    · simp only [hhit, if_true]
      exact Relation.ReflTransGen.single
        (wrapStep_of_hit (fun m => internalAnchor_shape e.2 m) hhit)
    · simp only [hhit, if_false, Bool.false_eq_true]
      exact Relation.ReflTransGen.refl

theorem injectPart_rtg (table : List (Str × Str)) :
    ∀ (acc : Str × List Str),
      Relation.ReflTransGen WrapStep acc.1
        (table.foldl (fun a e => internalStep e a) acc).1 := by
  induction table with
  | nil =>
      intro acc
      simp only [List.foldl_nil]
      exact Relation.ReflTransGen.refl
  | cons e es ih =>
      intro acc
      simp only [List.foldl_cons]
      exact Relation.ReflTransGen.trans (internalStep_rtg e acc) (ih (internalStep e acc))

theorem injectParts_rtg (table : List (Str × Str)) :
    ∀ (parts : List Str) (cons : List Str),
      Relation.ReflTransGen WrapStep parts.flatten
        ((injectParts table parts cons).1).flatten := by
  intro parts
  induction parts with
  | nil =>
      intro cons
      rw [injectParts]
  | cons p ps ih =>
      intro cons
      rw [injectParts]
      by_cases hp : isProtH3 p
      · simp only [hp, if_true, List.flatten_cons]
        exact rtgWrap_append_left p (ih cons)
      · simp only [hp, if_false, Bool.false_eq_true, List.flatten_cons]
        have h1 : Relation.ReflTransGen WrapStep (p ++ ps.flatten)
            ((injectPart table p cons).1 ++ ps.flatten) :=
          rtgWrap_append_right ps.flatten (injectPart_rtg table (p, cons))
        have h2 : Relation.ReflTransGen WrapStep
            ((injectPart table p cons).1 ++ ps.flatten)
            ((injectPart table p cons).1 ++
              ((injectParts table ps (injectPart table p cons).2).1).flatten) :=
          rtgWrap_append_left _ (ih _)
        exact Relation.ReflTransGen.trans h1 h2

theorem rtg_inject_internal (table : List (Str × Str)) (content : Str) :
    Relation.ReflTransGen WrapStep content (inject_internal_links table content) := by
  unfold inject_internal_links
  have := injectParts_rtg table (splitByH3 content) []
  rwa [splitByH3_flatten] at this

theorem externalStep_rtg (fol : List Str) (e : Str × Str) (acc : Str × List Str) :
    Relation.ReflTransGen WrapStep acc.1 (externalStep fol e acc).1 := by
  obtain ⟨cur, used⟩ := acc
  unfold externalStep
  by_cases hm : e.2 ∈ used
  · simp only [hm, if_true]
    exact Relation.ReflTransGen.refl
  · simp only [hm, if_false]
    by_cases hhit : (replGo false (externalAnchor e.2 (fol.contains e.2)) e.1 [] cur).2 = true
    · simp only [hhit, if_true]
      exact Relation.ReflTransGen.single
        (wrapStep_of_hit (fun m => externalAnchor_shape e.2 (fol.contains e.2) m) hhit)
    · simp only [hhit, if_false, Bool.false_eq_true]
      exact Relation.ReflTransGen.refl

theorem injectPartExt_rtg (fol : List Str) (table : List (Str × Str)) :
    ∀ (acc : Str × List Str),
      Relation.ReflTransGen WrapStep acc.1
        (table.foldl (fun a e => externalStep fol e a) acc).1 := by
  induction table with
  | nil =>
      intro acc
      simp only [List.foldl_nil]
      exact Relation.ReflTransGen.refl
  | cons e es ih =>
      intro acc
      simp only [List.foldl_cons]
      exact Relation.ReflTransGen.trans (externalStep_rtg fol e acc) (ih (externalStep fol e acc))

theorem injectPartsExt_rtg (fol : List Str) (table : List (Str × Str)) :
    ∀ (parts : List Str) (used : List Str),
      Relation.ReflTransGen WrapStep parts.flatten
        ((injectPartsExt fol table parts used).1).flatten := by
  intro parts
  induction parts with
  | nil =>
      intro used
      rw [injectPartsExt]
  | cons p ps ih =>
      intro used
      rw [injectPartsExt]
      by_cases hp : isProtExt p
      · simp only [hp, if_true, List.flatten_cons]
        exact rtgWrap_append_left p (ih used)
      · simp only [hp, if_false, Bool.false_eq_true, List.flatten_cons]
        have h1 : Relation.ReflTransGen WrapStep (p ++ ps.flatten)
            ((injectPartExt fol table p used).1 ++ ps.flatten) :=
          rtgWrap_append_right ps.flatten (injectPartExt_rtg fol table (p, used))
        have h2 : Relation.ReflTransGen WrapStep
            ((injectPartExt fol table p used).1 ++ ps.flatten)
            ((injectPartExt fol table p used).1 ++
              ((injectPartsExt fol table ps (injectPartExt fol table p used).2).1).flatten) :=
          rtgWrap_append_left _ (ih _)
        exact Relation.ReflTransGen.trans h1 h2

theorem rtg_inject_external (table : List (Str × Str)) (fol : List Str) (content : Str) :
    Relation.ReflTransGen WrapStep content (inject_external_links table fol content) := by
  unfold inject_external_links
  have := injectPartsExt_rtg fol table (splitByExtern content) []
  rwa [splitByExtern_flatten] at this

/-! ## Single-entry table lemmas for the internal pass -/

theorem injectPart_single (k u part : Str) (cons : List Str) :
    injectPart [(k, u)] part cons = internalStep (k, u) (part, cons) := by
  simp [injectPart]

theorem internalStep_hit {k u cur : Str} {cons : List Str}
    (hm : lows k ∉ cons) (hhit : (replGo true (internalAnchor u) k [] cur).2 = true) :
    internalStep (k, u) (cur, cons) =
      ((replGo true (internalAnchor u) k [] cur).1, lows k :: cons) := by
  unfold internalStep
  simp only [hm, if_false, hhit, if_true]

theorem internalStep_nohit {k u cur : Str} {cons : List Str}
    (hm : lows k ∉ cons) (hhit : (replGo true (internalAnchor u) k [] cur).2 = false) :
    internalStep (k, u) (cur, cons) = (cur, cons) := by
  unfold internalStep
  simp only [hm, if_false, hhit]
  simp

theorem injectParts_single_hit {k u : Str} :
    ∀ (L : List Str) (P : Str) (R : List Str),
      (∀ p ∈ L, isProtH3 p = false → countIC true k [] p = 0) →
      isProtH3 P = false →
      (replGo true (internalAnchor u) k [] P).2 = true →
      injectParts [(k, u)] (L ++ P :: R) [] =
        (L ++ (replGo true (internalAnchor u) k [] P).1 :: R, [lows k]) := by
  intro L
  induction L with
  | nil =>
      intro P R hL hP hhit
      simp only [List.nil_append]
      rw [injectParts]
      simp only [hP, if_false, Bool.false_eq_true]
      rw [injectPart_single, internalStep_hit (by simp) hhit,
        injectParts_consumed_single R [lows k] (by simp)]
  | cons p L2 ih =>
      intro P R hL hP hhit
      simp only [List.cons_append]
      rw [injectParts]
      by_cases hp : isProtH3 p
      · simp only [hp, if_true]
        rw [ih P R (fun q hq => hL q (by simp [hq])) hP hhit]
      · have hz : countIC true k [] p = 0 := hL p (by simp) (by simpa using hp)
        simp only [hp, if_false, Bool.false_eq_true]
        rw [injectPart_zero (by intro e he; simp at he; subst he; exact hz)]
        rw [ih P R (fun q hq => hL q (by simp [hq])) hP hhit]

theorem injectParts_single_cases {k u : Str} :
    ∀ parts : List Str,
      injectParts [(k, u)] parts [] = (parts, []) ∨
      ∃ L P R pre m rest,
        parts = L ++ P :: R ∧ isProtH3 P = false ∧ P = pre ++ m ++ rest ∧ lows m = lows k ∧
        injectParts [(k, u)] parts [] =
          (L ++ (pre ++ internalAnchor u m ++ rest) :: R, [lows k]) := by
  intro parts
  induction parts with
  | nil => left; rfl
  | cons p ps ih =>
      by_cases hp : isProtH3 p
      · rcases ih with h | ⟨L, P, R, pre, m, rest, h1, h2, h3, h4, h5⟩
        · left
          rw [injectParts]
          simp [hp, h]
        · right
          refine ⟨p :: L, P, R, pre, m, rest, by simp [h1], h2, h3, h4, ?_⟩
          rw [injectParts]
          simp [hp, h5]
      · cases hhit : (replGo true (internalAnchor u) k [] p).2 with
        | true =>
            right
            obtain ⟨pre, m, rest, hs, hr, hl⟩ := replGo_hit_decomp true (internalAnchor u) k p [] hhit
            refine ⟨[], p, ps, pre, m, rest, by simp, by simpa using hp, hs, hl, ?_⟩
            rw [injectParts]
            simp only [hp, if_false, Bool.false_eq_true]
            rw [injectPart_single, internalStep_hit (by simp) hhit,
              injectParts_consumed_single ps [lows k] (by simp)]
            simp [hr]
        | false =>
            rcases ih with h | ⟨L, P, R, pre, m, rest, h1, h2, h3, h4, h5⟩
            · left
              rw [injectParts]
              simp only [hp, if_false, Bool.false_eq_true]
              rw [injectPart_single, internalStep_nohit (by simp) hhit]
              simp [h]
            · right
              refine ⟨p :: L, P, R, pre, m, rest, by simp [h1], h2, h3, h4, ?_⟩
              rw [injectParts]
              simp only [hp, if_false, Bool.false_eq_true]
              rw [injectPart_single, internalStep_nohit (by simp) hhit]
              simp [h5]

/-! ## Case-insensitive dedup of the internal table -/

theorem internalStep_dup {k1 u1 k2 u2 : Str} (h : lows k1 = lows k2) (acc : Str × List Str) :
    internalStep (k2, u2) (internalStep (k1, u1) acc) = internalStep (k1, u1) acc := by
  obtain ⟨cur, cons⟩ := acc
  by_cases hm : lows k1 ∈ cons
  · rw [internalStep_mem hm, internalStep_mem (show lows k2 ∈ cons from h ▸ hm)]
  · cases hhit : (replGo true (internalAnchor u1) k1 [] cur).2 with
    | true =>
        rw [internalStep_hit hm hhit]
        exact internalStep_mem (by rw [← h]; simp)
    | false =>
        rw [internalStep_nohit hm hhit]
        apply internalStep_nohit (show lows k2 ∉ cons from h ▸ hm)
        have e1 : replGo true (internalAnchor u2) k1 [] cur =
            replGo true (internalAnchor u2) k2 [] cur :=
          replGo_congr true (internalAnchor u2) h cur []
        have e2 : (replGo true (internalAnchor u2) k1 [] cur).2 =
            (replGo true (internalAnchor u1) k1 [] cur).2 :=
          replGo_snd_mk_indep true (internalAnchor u2) (internalAnchor u1) k1 cur []
        rw [← e1, e2, hhit]

theorem injectPart_dup {k1 u1 k2 u2 : Str} (h : lows k1 = lows k2) (part : Str)
    (cons : List Str) :
    injectPart [(k1, u1), (k2, u2)] part cons = injectPart [(k1, u1)] part cons := by
  simp only [injectPart, List.foldl_cons, List.foldl_nil]
  exact internalStep_dup h (part, cons)

theorem injectParts_dup {k1 u1 k2 u2 : Str} (h : lows k1 = lows k2) :
    ∀ (parts : List Str) (cons : List Str),
      injectParts [(k1, u1), (k2, u2)] parts cons = injectParts [(k1, u1)] parts cons := by
  intro parts
  induction parts with
  | nil => intro cons; rfl
  | cons p ps ih =>
      intro cons
      rw [injectParts, injectParts]
      by_cases hp : isProtH3 p
      · simp [hp, ih]
      · simp only [hp, if_false, Bool.false_eq_true]
        rw [injectPart_dup h, ih]

/-! ## Zero-count transfer and empty-input lemmas -/

theorem internalTotal_true_zero {k content : Str} (h : internalTotal false k content = 0) :
    internalTotal true k content = 0 := by
  unfold internalTotal at h ⊢
  rw [List.sum_eq_zero_iff] at h ⊢
  intro x hx
  simp only [List.mem_map] at hx
  obtain ⟨p, hp, rfl⟩ := hx
  have h0 := h (internalPartCount false k p) (List.mem_map_of_mem _ hp)
  unfold internalPartCount at h0 ⊢
  by_cases hprot : isProtH3 p
  · simp [hprot]
  · simp only [hprot, if_false, Bool.false_eq_true] at h0 ⊢
    exact countIC_true_zero_of_false_zero k p [] h0

theorem tryMatch_nil (g : Bool) (pat : Str) : tryMatch g pat [] [] = none := by
  unfold tryMatch
  have h1 : icStarts hrefRev [] = false := by decide
  have h2 : boundaryB none none = false := by decide
  simp [h1, h2]

theorem internalTotal_nil (g : Bool) (pat : Str) : internalTotal g pat [] = 0 := by
  have hs : splitByH3 [] = [[]] := rfl
  have hprot : isProtH3 [] = false := by decide
  unfold internalTotal
  rw [hs]
  simp [internalPartCount, hprot, countIC, tryMatch_nil]

theorem extTotal_nil (pat : Str) : extTotal pat [] = 0 := by
  have hs : splitByExtern [] = [[]] := rfl
  have hprot : isProtExt [] = false := by decide
  unfold extTotal
  rw [hs]
  simp [extPartCount, hprot, countIC, tryMatch_nil]

/-! ## External-pass hit lemmas -/

theorem externalStep_hit {fol : List Str} {p u cur : Str} {used : List Str}
    (hm : u ∉ used)
    (hhit : (replGo false (externalAnchor u (fol.contains u)) p [] cur).2 = true) :
    externalStep fol (p, u) (cur, used) =
      ((replGo false (externalAnchor u (fol.contains u)) p [] cur).1, u :: used) := by
  unfold externalStep
  simp only [hm, if_false, hhit, if_true]

/-! ## Retry-loop lemmas -/

theorem retryGo_success_case (client : Nat → AttemptOutcome) {i rem : Nat}
    (hrem : 0 < rem) (hc : client i = AttemptOutcome.success) :
    retryGo client i rem = (true, i + 1) := by
  cases rem with
  | zero => omega
  | succ r => rw [retryGo, hc]

theorem retryGo_fatal_case (client : Nat → AttemptOutcome) {i rem : Nat}
    (hrem : 0 < rem) (hc : client i = AttemptOutcome.fatal) :
    retryGo client i rem = (false, i + 1) := by
  cases rem with
  | zero => omega
  | succ r => rw [retryGo, hc]

theorem retryGo_timeout_step (client : Nat → AttemptOutcome) {i rem : Nat}
    (hrem : 1 < rem) (hc : client i = AttemptOutcome.timeout) :
    retryGo client i rem = retryGo client (i + 1) (rem - 1) := by
  cases rem with
  | zero => omega
  | succ r =>
      rw [retryGo, hc]
      have : r ≠ 0 := by omega
      simp [this]

theorem retryGo_all_timeout (client : Nat → AttemptOutcome)
    (h : ∀ i, client i = AttemptOutcome.timeout) :
    ∀ rem i, retryGo client i rem = (false, i + rem) := by
  intro rem
  induction rem with
  | zero => intro i; rw [retryGo]; simp
  | succ r ih =>
      intro i
      rw [retryGo, h i]
      by_cases hr : r = 0
      · subst hr; simp
      · simp only [hr, if_false]
        rw [ih (i + 1)]
        simp
        omega

theorem retryGo_skip (client : Nat → AttemptOutcome) :
    ∀ k i rem, (∀ j, j < k → client (i + j) = AttemptOutcome.timeout) → k < rem →
      retryGo client i rem = retryGo client (i + k) (rem - k) := by
  intro k
  induction k with
  | zero => intro i rem _ _; simp
  | succ n ih =>
      intro i rem h hk
      have hc : client i = AttemptOutcome.timeout := by simpa using h 0 (by omega)
      rw [retryGo_timeout_step client (by omega) hc]
      rw [ih (i + 1) (rem - 1) (fun j hj => by
        have := h (j + 1) (by omega)
        simpa [Nat.add_assoc, Nat.add_comm 1 j] using this) (by omega)]
      congr 1
      · omega
      · omega

/-! ## String lemmas for the SEO-title normalization -/

theorem findSub_singleton_none {c : Char} : ∀ {s : Str}, c ∉ s → findSub [c] s = none := by
  intro s
  induction s with
  | nil => intro _; rfl
  | cons d ds ih =>
      intro h
      rw [findSub]
      have hne : c ≠ d := fun he => h (by rw [he]; simp)
      have hp : ([c].isPrefixOf (d :: ds)) = false := by
        simp [List.isPrefixOf]
        intro he
        exact absurd he hne
      rw [hp]
      simp only [if_false, Bool.false_eq_true]
      rw [ih (fun hm => h (by simp [hm]))]
      rfl

theorem findSub_singleton_get {c : Char} : ∀ {s : Str} {p : Nat},
    findSub [c] s = some p → s[p]? = some c := by
  intro s
  induction s with
  | nil =>
      intro p h
      simp [findSub] at h
  | cons d ds ih =>
      intro p h
      rw [findSub] at h
      by_cases hp : [c].isPrefixOf (d :: ds)
      · have hcd : c = d := by simpa [List.isPrefixOf] using hp
        rw [if_pos hp] at h
        have : p = 0 := by simpa using h.symm
        subst this
        simp [hcd]
      · rw [if_neg hp] at h
        simp only [Option.map_eq_some'] at h
        obtain ⟨q, hq, rfl⟩ := h
        simpa using ih hq

theorem findSub_singleton_mem {c : Char} : ∀ {s : Str}, c ∈ s → ∃ p, findSub [c] s = some p := by
  intro s
  induction s with
  | nil => intro h; simp at h
  | cons d ds ih =>
      intro h
      rw [findSub]
      by_cases hp : [c].isPrefixOf (d :: ds)
      · exact ⟨0, by rw [if_pos hp]⟩
      · have hcd : c ≠ d := by simpa [List.isPrefixOf] using hp
        have hm : c ∈ ds := by
          rcases List.mem_cons.mp h with h1 | h1
          · exact absurd h1 hcd
          · exact h1
        obtain ⟨q, hq⟩ := ih hm
        exact ⟨q + 1, by rw [if_neg hp, hq]; rfl⟩

theorem cutAtLastSpace_no_space {s : Str} (h : ' ' ∉ s) : cutAtLastSpace s = s := by
  unfold cutAtLastSpace
  rw [findSub_singleton_none (by simpa using h)]

theorem cutAtLastSpace_space {s : Str} (h : ' ' ∈ s) :
    ∃ j, s[j]? = some ' ' ∧ cutAtLastSpace s = s.take j := by
  have h2 : ' ' ∈ s.reverse := List.mem_reverse.mpr h
  obtain ⟨p, hp⟩ := findSub_singleton_mem h2
  have hg := findSub_singleton_get hp
  have hlt : p < s.length := by
    by_contra hge
    rw [List.getElem?_eq_none (by simpa using Nat.le_of_not_lt hge)] at hg
    exact absurd hg (by simp)
  refine ⟨s.length - 1 - p, ?_, ?_⟩
  · rw [← List.getElem?_reverse hlt]
    exact hg
  · unfold cutAtLastSpace
    rw [hp]

theorem cutAtLastSpace_length_le (s : Str) : (cutAtLastSpace s).length ≤ s.length := by
  unfold cutAtLastSpace
  cases h : findSub [' '] s.reverse with
  | none => simp
  | some p => simp

theorem stripWs_length_le (s : Str) : (stripWs s).length ≤ s.length := by
  unfold stripWs
  have h1 : ((s.dropWhile isWs).reverse.dropWhile isWs).length ≤
      (s.dropWhile isWs).reverse.length :=
    List.IsSuffix.length_le (List.dropWhile_suffix isWs)
  have h2 : (s.dropWhile isWs).length ≤ s.length :=
    List.IsSuffix.length_le (List.dropWhile_suffix isWs)
  simp only [List.length_reverse] at *
  omega

/-! ## Claim theorems -/

/-- C5: for the legacy plugin shape, `prepare_seo_data` returns a single-root
mapping `{"meta": {...}}` whose keys are the title key and description key,
plus a keywords key whose value is the comma-joined string of
`[focus_keyphrase] + additional_keyphrases` in that order whenever either
keyphrase input is non-empty; when neither is provided, the keywords key is
omitted entirely rather than set to an empty string. -/
theorem C5_prepare_seo_legacy (t d : Str) (focus : Option Str) (addl : List Str) :
    (focus = none → addl = [] →
      prepare_seo_data shapeOld t d focus addl =
        Json.obj [(keyMeta, Json.obj
          [(keyAioTitle, Json.str t), (keyAioDesc, Json.str d)])]) ∧
    ((focus.isSome ∨ addl ≠ []) →
      prepare_seo_data shapeOld t d focus addl =
        Json.obj [(keyMeta, Json.obj
          [(keyAioTitle, Json.str t), (keyAioDesc, Json.str d),
           (keyAioKeywords, Json.str (joinComma (focus.toList ++ addl)))])]) := by
  constructor
  · intro h1 h2
    subst h1
    subst h2
    simp [prepare_seo_data]
  · intro h
    cases focus with
    | some f => simp [prepare_seo_data]
    | none =>
        cases addl with
        | nil => simp at h
        | cons a as => simp [prepare_seo_data]

theorem C5_witness :
    prepare_seo_data shapeOld (("Test SEO Title").data) (("Test meta description for SEO").data)
        (some (("transfer news").data)) [(("arsenal").data), (("deadline day").data)] =
      Json.obj [(keyMeta, Json.obj
        [(keyAioTitle, Json.str (("Test SEO Title").data)),
         (keyAioDesc, Json.str (("Test meta description for SEO").data)),
         (keyAioKeywords, Json.str (("transfer news, arsenal, deadline day").data))])] ∧
    prepare_seo_data shapeOld (("Minimal Title").data) (("Minimal description").data) none [] =
      Json.obj [(keyMeta, Json.obj
        [(keyAioTitle, Json.str (("Minimal Title").data)),
         (keyAioDesc, Json.str (("Minimal description").data))])] := by
  constructor
  · rw [(C5_prepare_seo_legacy (("Test SEO Title").data)
      (("Test meta description for SEO").data) (some (("transfer news").data))
      [(("arsenal").data), (("deadline day").data)]).2 (by simp)]
    rfl
  · exact (C5_prepare_seo_legacy (("Minimal Title").data) (("Minimal description").data)
      none []).1 rfl rfl

/-- C6: for the modern plugin shape, `prepare_seo_data` returns a single root
key containing title and description, and when a focus keyphrase is provided
it adds a keyphrases sub-object with `focus.keyphrase` equal to the focus
keyphrase and `additional` equal to a list of `{"keyphrase": kp}` objects in
input order (plus a `focus_keyphrase` field); when the focus keyphrase is
absent, the `keyphrases`/`focus_keyphrase` fields are not added at all, even
if `additional_keyphrases` is present. -/
theorem C6_prepare_seo_modern (t d : Str) (focus : Option Str) (addl : List Str) :
    (focus = none →
      prepare_seo_data shapeNew t d focus addl =
        Json.obj [(keyAioRoot, Json.obj
          [(keyTitle, Json.str t), (keyDesc, Json.str d)])]) ∧
    (∀ f, focus = some f →
      prepare_seo_data shapeNew t d focus addl =
        Json.obj [(keyAioRoot, Json.obj
          [(keyTitle, Json.str t), (keyDesc, Json.str d),
           (keyFocusKeyphrase, Json.str f),
           (keyKeyphrases, Json.obj
             [(keyFocus, Json.obj [(keyKeyphrase, Json.str f)]),
              (keyAdditional, Json.arr
                (addl.map (fun kp => Json.obj [(keyKeyphrase, Json.str kp)])))])])]) := by
  have hne : (shapeNew = shapeOld) = False := by
    simp [shapeNew, shapeOld]
  constructor
  · intro h1
    subst h1
    simp [prepare_seo_data, hne]
  · intro f h1
    subst h1
    simp [prepare_seo_data, hne]

theorem C6_witness :
    prepare_seo_data shapeNew (("T").data) (("D").data)
        (some (("transfer news").data)) [(("arsenal").data), (("deadline day").data)] =
      Json.obj [(keyAioRoot, Json.obj
        [(keyTitle, Json.str (("T").data)), (keyDesc, Json.str (("D").data)),
         (keyFocusKeyphrase, Json.str (("transfer news").data)),
         (keyKeyphrases, Json.obj
           [(keyFocus, Json.obj [(keyKeyphrase, Json.str (("transfer news").data))]),
            (keyAdditional, Json.arr
              [Json.obj [(keyKeyphrase, Json.str (("arsenal").data))],
               Json.obj [(keyKeyphrase, Json.str (("deadline day").data))]])])])] ∧
    prepare_seo_data shapeNew (("T").data) (("D").data) none [(("arsenal").data)] =
      Json.obj [(keyAioRoot, Json.obj
        [(keyTitle, Json.str (("T").data)), (keyDesc, Json.str (("D").data))])] := by
  constructor
  · rw [(C6_prepare_seo_modern (("T").data) (("D").data) (some (("transfer news").data))
      [(("arsenal").data), (("deadline day").data)]).2 (("transfer news").data) rfl]
    rfl
  · exact (C6_prepare_seo_modern (("T").data) (("D").data) none [(("arsenal").data)]).1 rfl

/-- C8: `validate_seo_configuration` returns false if and only if the plugin
shape is not one of the two recognized values (`old`/`new`) or any of base
URL, username, password is missing or empty; otherwise it returns true; the
embedding is a pure total Boolean function, so it cannot raise and mutates
no state. -/
theorem C8_validate_configuration (shape baseUrl username password : Str) :
    validate_seo_configuration shape baseUrl username password = false ↔
      (¬(shape = shapeOld ∨ shape = shapeNew) ∨
        baseUrl = [] ∨ username = [] ∨ password = []) := by
  unfold validate_seo_configuration
  by_cases h1 : shape = shapeOld
  · by_cases h2 : baseUrl = [] <;> by_cases h3 : username = [] <;> by_cases h4 : password = [] <;>
      simp [h1, h2, h3, h4, List.isEmpty_iff]
  · by_cases h5 : shape = shapeNew
    · by_cases h2 : baseUrl = [] <;> by_cases h3 : username = [] <;> by_cases h4 : password = [] <;>
        simp [h1, h5, h2, h3, h4, List.isEmpty_iff]
    · simp [h1, h5, List.isEmpty_iff]

/-- C9: `update_seo_metadata_with_retry` returns true on the first successful
attempt; with a client that times out twice and succeeds on the third call it
returns true after exactly three attempts when `max_retries ≥ 3`; with a
client that always times out it returns false after exactly `max_retries`
attempts; a non-transient failure is never retried (the loop stops right
after it). -/
theorem C9_update_with_retry :
    (∀ (client : Nat → AttemptOutcome) (m : Nat), 0 < m →
       client 0 = AttemptOutcome.success →
       update_seo_metadata_with_retry client m = (true, 1)) ∧
    (∀ (client : Nat → AttemptOutcome) (m : Nat), 3 ≤ m →
       client 0 = AttemptOutcome.timeout → client 1 = AttemptOutcome.timeout →
       client 2 = AttemptOutcome.success →
       update_seo_metadata_with_retry client m = (true, 3)) ∧
    (∀ (client : Nat → AttemptOutcome) (m : Nat),
       (∀ i, client i = AttemptOutcome.timeout) →
       update_seo_metadata_with_retry client m = (false, m)) ∧
    (∀ (client : Nat → AttemptOutcome) (m i : Nat), i < m →
       (∀ j, j < i → client j = AttemptOutcome.timeout) →
       client i = AttemptOutcome.fatal →
       update_seo_metadata_with_retry client m = (false, i + 1)) := by
  refine ⟨?_, ?_, ?_, ?_⟩
  · intro client m hm hc
    unfold update_seo_metadata_with_retry
    exact retryGo_success_case client hm hc
  · intro client m hm h0 h1 h2
    unfold update_seo_metadata_with_retry
    rw [retryGo_skip client 2 0 m (by
      intro j hj
      interval_cases j
      · simpa using h0
      · simpa using h1) (by omega)]
    have h3 : retryGo client (0 + 2) (m - 2) = (true, 0 + 2 + 1) :=
      retryGo_success_case client (by omega) (by simpa using h2)
    rw [h3]
  · intro client m h
    unfold update_seo_metadata_with_retry
    rw [retryGo_all_timeout client h m 0]
    simp
  · intro client m i hi hj hc
    unfold update_seo_metadata_with_retry
    rw [retryGo_skip client i 0 m (by intro j hjj; simpa using hj j hjj) hi]
    have h4 : retryGo client (0 + i) (m - i) = (false, 0 + i + 1) :=
      retryGo_fatal_case client (by omega) (by simpa using hc)
    rw [h4]
    simp

theorem C9_witness :
    update_seo_metadata_with_retry (fun _ => AttemptOutcome.success) 3 = (true, 1) ∧
    update_seo_metadata_with_retry
      (fun i => if i < 2 then AttemptOutcome.timeout else AttemptOutcome.success) 3 = (true, 3) ∧
    update_seo_metadata_with_retry (fun _ => AttemptOutcome.timeout) 2 = (false, 2) ∧
    update_seo_metadata_with_retry
      (fun i => if i = 0 then AttemptOutcome.fatal else AttemptOutcome.timeout) 5 = (false, 1) :=
  ⟨C9_update_with_retry.1 _ 3 (by omega) rfl,
   C9_update_with_retry.2.1 _ 3 (by omega) rfl rfl rfl,
   C9_update_with_retry.2.2.1 _ 2 (fun i => rfl),
   C9_update_with_retry.2.2.2 _ 5 0 (by omega) (fun j hjj => absurd hjj (by omega)) rfl⟩

/-- The claim's reading of the over-length branch: the result is the title
cut at some position `k ≤ 59` that does not split a word (with surrounding
whitespace stripped). -/
abbrev TruncatedAtWordBoundary (t r : Str) : Prop :=
  ∃ k : Fin 60, r = stripWs (t.take k.val) ∧
    ¬(0 < k.val ∧ k.val < t.length ∧
      optWord (t[k.val - 1]?) = true ∧ optWord (t[k.val]?) = true)

/-- C7 (amended): `generate_seo_title_and_meta` returns a title under 50
characters unchanged (warning only) and a title of 50 to 59 characters
unchanged; a title longer than 59 characters is truncated to at most 59
characters by cutting the first 59 characters at the last space among them
when one exists (a word-boundary cut) and stripping surrounding whitespace;
when the first 59 characters contain no space the title is hard-cut at 59
characters, which need not fall on a word boundary. -/
theorem C7_seo_title_normalization (t : Str) :
    (t.length < 50 → seoNormalizeTitle t = t) ∧
    (50 ≤ t.length → t.length ≤ 59 → seoNormalizeTitle t = t) ∧
    (59 < t.length →
      seoNormalizeTitle t = stripWs (cutAtLastSpace (t.take 59)) ∧
      (seoNormalizeTitle t).length ≤ 59 ∧
      (' ' ∈ t.take 59 → ∃ j, (t.take 59)[j]? = some ' ' ∧
        seoNormalizeTitle t = stripWs ((t.take 59).take j)) ∧
      (' ' ∉ t.take 59 → seoNormalizeTitle t = stripWs (t.take 59))) := by
  refine ⟨?_, ?_, ?_⟩
  · intro h
    unfold seoNormalizeTitle
    rw [if_neg (by omega)]
  · intro h1 h2
    unfold seoNormalizeTitle
    rw [if_neg (by omega)]
  · intro h
    have he : seoNormalizeTitle t = stripWs (cutAtLastSpace (t.take 59)) := by
      unfold seoNormalizeTitle
      rw [if_pos h]
    refine ⟨he, ?_, ?_, ?_⟩
    · rw [he]
      have l1 := stripWs_length_le (cutAtLastSpace (t.take 59))
      have l2 := cutAtLastSpace_length_le (t.take 59)
      have l3 : (t.take 59).length ≤ 59 := by simp
      omega
    · intro hsp
      obtain ⟨j, hj1, hj2⟩ := cutAtLastSpace_space hsp
      exact ⟨j, hj1, by rw [he, hj2]⟩
    · intro hsp
      rw [he, cutAtLastSpace_no_space hsp]

/-- C7 counterexample: a 60-character single word is hard-cut to its first 59
characters, which is not a truncation at a word boundary — the character
before and after the cut are both word characters. -/
theorem C7_counterexample :
    seoNormalizeTitle (List.replicate 60 'a') = List.replicate 59 'a' ∧
    59 < (List.replicate 60 'a' : Str).length ∧
    ¬ TruncatedAtWordBoundary (List.replicate 60 'a')
        (seoNormalizeTitle (List.replicate 60 'a')) := by
  refine ⟨by decide, by decide, by decide⟩

theorem C7_witness :
    seoNormalizeTitle (("Arsenal complete deadline day signing of star").data) =
      ("Arsenal complete deadline day signing of star").data ∧
    seoNormalizeTitle
        (("Arsenal complete a deadline day signing of a football star now").data) =
      ("Arsenal complete a deadline day signing of a football star").data := by
  constructor
  · exact (C7_seo_title_normalization (("Arsenal complete deadline day signing of star").data)).1
      (by decide)
  · obtain ⟨he, hlen, hsp, hnosp⟩ :=
      (C7_seo_title_normalization
        (("Arsenal complete a deadline day signing of a football star now").data)).2.2 (by decide)
    rw [he]
    rfl

/-- C1 (amended): for every content string in which a configured phrase has
exactly one whole-word case-insensitive occurrence outside protected
segments and that occurrence also survives the `href="` look-behind guard
(exactly one guarded match), `inject_internal_links` with that phrase as the
configured entry replaces the occurrence with exactly one anchor whose href
is the configured URL and whose visible text is the matched text with its
original casing (the matched slice of the content itself); phrases with no
match anywhere are silently skipped, the content being returned unchanged;
the embedding is total, so the call never raises. -/
theorem C1_internal_single_occurrence :
    (∀ (content k u : Str),
       internalTotal false k content = 1 →
       internalTotal true k content = 1 →
       ∃ pre m post, content = pre ++ m ++ post ∧ lows m = lows k ∧
         inject_internal_links [(k, u)] content = pre ++ internalAnchor u m ++ post) ∧
    (∀ (table : List (Str × Str)) (content : Str),
       (∀ e ∈ table, internalTotal false e.1 content = 0) →
       inject_internal_links table content = content) := by
  constructor
  · intro content k u hfu hgu
    have hne : ((splitByH3 content).map (internalPartCount true k)).sum ≠ 0 := by
      unfold internalTotal at hgu
      omega
    obtain ⟨L, P, R, hparts, hL, hP⟩ :=
      exists_first_nonzero (internalPartCount true k) (splitByH3 content) hne
    have hPprot : isProtH3 P = false := by
      by_contra hc
      have : isProtH3 P = true := by simpa using hc
      unfold internalPartCount at hP
      rw [this] at hP
      simp at hP
    have hPcnt : countIC true k [] P ≠ 0 := by
      unfold internalPartCount at hP
      rw [hPprot] at hP
      simpa using hP
    have hhit := replGo_hit_of_count_ne_zero true (internalAnchor u) k P [] hPcnt
    have hLz : ∀ p ∈ L, isProtH3 p = false → countIC true k [] p = 0 := by
      intro p hp hprot
      have h0 := hL p hp
      unfold internalPartCount at h0
      rw [hprot] at h0
      simpa using h0
    have hinj := injectParts_single_hit L P R hLz hPprot hhit
    obtain ⟨pre0, m, rest0, hs, hr, hl⟩ := replGo_hit_decomp true (internalAnchor u) k P [] hhit
    refine ⟨L.flatten ++ pre0, m, rest0 ++ R.flatten, ?_, hl, ?_⟩
    · conv_lhs => rw [← splitByH3_flatten content, hparts]
      rw [List.flatten_append, List.flatten_cons, hs]
      simp [List.append_assoc]
    · unfold inject_internal_links
      rw [hparts, hinj]
      simp only []
      rw [List.flatten_append, List.flatten_cons, hr]
      simp [List.append_assoc]
  · intro table content h
    exact injectInternal_noop (fun e he => internalTotal_true_zero (h e he))

/-- C1 counterexample: the phrase `arsenal` occurs exactly once outside
protected segments in `x href="arsenal" y` (there are no protected
segments), yet `inject_internal_links` returns the content unchanged and no
anchor is produced, because the occurrence is immediately preceded by
`href="` and the look-behind guard suppresses the match. -/
theorem C1_counterexample :
    internalTotal false (("arsenal").data) (("x href=\"arsenal\" y").data) = 1 ∧
    inject_internal_links [(("arsenal").data, ("https://a.example/").data)]
        (("x href=\"arsenal\" y").data) = ("x href=\"arsenal\" y").data ∧
    ¬ ∃ pre m post,
        ("x href=\"arsenal\" y").data = pre ++ m ++ post ∧
        lows m = lows (("arsenal").data) ∧
        inject_internal_links [(("arsenal").data, ("https://a.example/").data)]
            (("x href=\"arsenal\" y").data) =
          pre ++ internalAnchor (("https://a.example/").data) m ++ post := by
  have he : inject_internal_links [(("arsenal").data, ("https://a.example/").data)]
      (("x href=\"arsenal\" y").data) = ("x href=\"arsenal\" y").data := by decide
  refine ⟨by decide, he, ?_⟩
  rintro ⟨pre, m, post, hc, hl, ho⟩
  have h1 : '<' ∈ pre ++ internalAnchor (("https://a.example/").data) m ++ post := by
    have h2 : '<' ∈ internalAnchor (("https://a.example/").data) m := by
      unfold internalAnchor
      have h3 : '<' ∈ ("<a href=\"").data := by decide
      simp [h3]
    simp [h2]
  rw [← ho, he] at h1
  exact absurd h1 (by decide)

theorem C1_witness :
    (∃ pre m post,
      ("Arsenal signed a star").data = pre ++ m ++ post ∧
      lows m = lows (("arsenal").data) ∧
      inject_internal_links [(("arsenal").data, ("https://a.example/").data)]
          (("Arsenal signed a star").data) =
        pre ++ internalAnchor (("https://a.example/").data) m ++ post) ∧
    inject_internal_links [(("chelsea").data, ("https://c.example/").data)]
        (("Arsenal signed a star").data) = ("Arsenal signed a star").data := by
  constructor
  · exact C1_internal_single_occurrence.1 (("Arsenal signed a star").data)
      (("arsenal").data) (("https://a.example/").data) (by decide) (by decide)
  · exact C1_internal_single_occurrence.2 [(("chelsea").data, ("https://c.example/").data)]
      (("Arsenal signed a star").data) (by decide)

/-- C2: the internal pass links each phrase key at most once globally across
all rewritable segments (at most one insertion for a configured phrase, the
first guarded match), phrases are deduplicated case-insensitively (a second
table entry whose phrase is a case variant of an earlier one is never used),
and the external pass uses each distinct target URL at most once: for a
table with two phrases mapping to the same URL, on a single rewritable
segment `inject_external_links` links only the first phrase of the table and
leaves every other occurrence, in particular the second phrase, as plain
text (the output is the input with exactly one anchor wrapped around the
first phrase's first match). -/
theorem C2_one_link_per_key_and_url :
    (∀ (content k u : Str),
       inject_internal_links [(k, u)] content = content ∨
       ∃ pre m post, content = pre ++ m ++ post ∧ lows m = lows k ∧
         inject_internal_links [(k, u)] content = pre ++ internalAnchor u m ++ post) ∧
    (∀ (k1 u1 k2 u2 content : Str), lows k1 = lows k2 →
       inject_internal_links [(k1, u1), (k2, u2)] content =
         inject_internal_links [(k1, u1)] content) ∧
    (∀ (p1 p2 u : Str) (fol : List Str) (content : Str),
       scanExt content = none → isProtExt content = false →
       countIC false p1 [] content ≠ 0 →
       ∃ pre m post, content = pre ++ m ++ post ∧ lows m = lows p1 ∧
         inject_external_links [(p1, u), (p2, u)] fol content =
           pre ++ externalAnchor u (fol.contains u) m ++ post) := by
  refine ⟨?_, ?_, ?_⟩
  · intro content k u
    rcases injectParts_single_cases (k := k) (u := u) (splitByH3 content) with h | h
    · left
      unfold inject_internal_links
      rw [h, splitByH3_flatten]
    · right
      obtain ⟨L, P, R, pre0, m, rest0, hparts, hPprot, hs, hl, hres⟩ := h
      refine ⟨L.flatten ++ pre0, m, rest0 ++ R.flatten, ?_, hl, ?_⟩
      · conv_lhs => rw [← splitByH3_flatten content, hparts]
        rw [List.flatten_append, List.flatten_cons, hs]
        simp [List.append_assoc]
      · unfold inject_internal_links
        rw [hres]
        simp only []
        rw [List.flatten_append, List.flatten_cons]
        simp [List.append_assoc]
  · intro k1 u1 k2 u2 content h
    unfold inject_internal_links
    rw [injectParts_dup h]
  · intro p1 p2 u fol content hseg hprot hcnt
    have hhit := replGo_hit_of_count_ne_zero false (externalAnchor u (fol.contains u)) p1
      content [] hcnt
    obtain ⟨pre, m, rest, hs, hr, hl⟩ :=
      replGo_hit_decomp false (externalAnchor u (fol.contains u)) p1 content [] hhit
    refine ⟨pre, m, rest, hs, hl, ?_⟩
    unfold inject_external_links
    rw [splitByExtern_none hseg]
    rw [injectPartsExt]
    simp only [hprot, if_false, Bool.false_eq_true]
    have hstep : injectPartExt fol [(p1, u), (p2, u)] content [] =
        ((replGo false (externalAnchor u (fol.contains u)) p1 [] content).1, [u]) := by
      unfold injectPartExt
      simp only [List.foldl_cons, List.foldl_nil]
      rw [externalStep_hit (by simp) hhit]
      exact externalStep_mem (by simp)
    rw [hstep]
    simp only []
    rw [injectPartsExt]
    simp only [List.flatten_cons, List.flatten_nil, List.append_nil]
    rw [hr]

theorem C2_witness :
    (inject_internal_links [(("Arsenal").data, ("u1").data), (("ARSENAL").data, ("u2").data)]
        (("Arsenal news").data) =
      inject_internal_links [(("Arsenal").data, ("u1").data)] (("Arsenal news").data)) ∧
    (∃ pre m post, ("spurs beat tottenham").data = pre ++ m ++ post ∧
       lows m = lows (("tottenham").data) ∧
       inject_external_links
           [(("tottenham").data, ("https://t.example/").data),
            (("spurs").data, ("https://t.example/").data)] []
           (("spurs beat tottenham").data) =
         pre ++ externalAnchor (("https://t.example/").data)
           (List.contains [] (("https://t.example/").data)) m ++ post) := by
  constructor
  · exact C2_one_link_per_key_and_url.2.1 (("Arsenal").data) (("u1").data)
      (("ARSENAL").data) (("u2").data) (("Arsenal news").data) (by decide)
  · exact C2_one_link_per_key_and_url.2.2 (("tottenham").data) (("spurs").data)
      (("https://t.example/").data) [] (("spurs beat tottenham").data)
      (by decide) (by decide) (by decide)

/-! ## Fixed points of the internal pass

A run of the internal pass returns its input unchanged exactly when no
configured phrase has a guarded match in any rewritable segment: every
replacement strictly lengthens the content, and an unchanged run forces
every entry to have scanned every original segment without a hit. -/

theorem count_zero_of_replGo_miss (g : Bool) (mk : Str → Str) (pat : Str) :
    ∀ s rev, (replGo g mk pat rev s).2 = false → countIC g pat rev s = 0 := by
  intro s
  induction s with
  | nil =>
      intro rev h
      rw [replGo] at h
      rw [countIC]
      cases ht : tryMatch g pat rev [] with
      | some x => rw [ht] at h; simp at h
      | none => simp [ht]
  | cons c cs ih =>
      intro rev h
      rw [replGo] at h
      rw [countIC]
      cases ht : tryMatch g pat rev (c :: cs) with
      | some x => rw [ht] at h; simp at h
      | none =>
          rw [ht] at h
          simp only [] at h
          simp only [ht, Option.isSome_none, if_false, Bool.false_eq_true, Nat.zero_add]
          exact ih (c :: rev) (by simpa using h)

theorem internalAnchor_length (u m : Str) :
    (internalAnchor u m).length = m.length + u.length + 15 := by
  have h1 : ((("<a href=\"").data : Str)).length = 9 := rfl
  have h2 : ((("\">").data : Str)).length = 2 := rfl
  have h3 : ((("</a>").data : Str)).length = 4 := rfl
  unfold internalAnchor
  simp only [List.length_append, h1, h2, h3]
  omega

theorem internalStep_same_or_longer (e : Str × Str) (acc : Str × List Str) :
    internalStep e acc = acc ∨ acc.1.length < (internalStep e acc).1.length := by
  obtain ⟨cur, cons⟩ := acc
  by_cases hm : lows e.1 ∈ cons
  · left
    exact internalStep_mem hm
  · cases hhit : (replGo true (internalAnchor e.2) e.1 [] cur).2 with
    | false =>
        left
        exact internalStep_nohit hm hhit
    | true =>
        right
        rw [internalStep_hit hm hhit]
        obtain ⟨pre, m, rest, hs, hr, _⟩ :=
          replGo_hit_decomp true (internalAnchor e.2) e.1 cur [] hhit
        simp only []
        rw [hr, hs]
        simp only [List.length_append, internalAnchor_length]
        omega

theorem foldl_internalStep_ge (table : List (Str × Str)) :
    ∀ acc : Str × List Str,
      acc.1.length ≤ (table.foldl (fun a e => internalStep e a) acc).1.length := by
  induction table with
  | nil => intro acc; simp
  | cons e es ih =>
      intro acc
      simp only [List.foldl_cons]
      rcases internalStep_same_or_longer e acc with h | h
      · rw [h]
        exact ih acc
      · exact le_trans (le_of_lt h) (ih _)

theorem foldl_internalStep_same_or_longer (table : List (Str × Str)) :
    ∀ acc : Str × List Str,
      table.foldl (fun a e => internalStep e a) acc = acc ∨
      acc.1.length < (table.foldl (fun a e => internalStep e a) acc).1.length := by
  induction table with
  | nil =>
      intro acc
      left
      simp
  | cons e es ih =>
      intro acc
      simp only [List.foldl_cons]
      rcases internalStep_same_or_longer e acc with h | h
      · rw [h]
        exact ih acc
      · right
        exact lt_of_lt_of_le h (foldl_internalStep_ge es _)

theorem injectPart_length_ge (table : List (Str × Str)) (part : Str) (cons : List Str) :
    part.length ≤ (injectPart table part cons).1.length := by
  unfold injectPart
  exact foldl_internalStep_ge table (part, cons)

theorem injectPart_same_or_longer (table : List (Str × Str)) (part : Str) (cons : List Str) :
    injectPart table part cons = (part, cons) ∨
    part.length < (injectPart table part cons).1.length := by
  unfold injectPart
  exact foldl_internalStep_same_or_longer table (part, cons)

theorem injectParts_flatten_ge (table : List (Str × Str)) :
    ∀ (parts : List Str) (cons : List Str),
      parts.flatten.length ≤ ((injectParts table parts cons).1).flatten.length := by
  intro parts
  induction parts with
  | nil => intro cons; simp [injectParts]
  | cons p ps ih =>
      intro cons
      rw [injectParts]
      by_cases hp : isProtH3 p
      · simp only [hp, if_true, List.flatten_cons, List.length_append]
        have := ih cons
        omega
      · simp only [hp, if_false, Bool.false_eq_true, List.flatten_cons, List.length_append]
        have h1 := injectPart_length_ge table p cons
        have h2 := ih (injectPart table p cons).2
        omega

theorem injectParts_same_or_longer (table : List (Str × Str)) :
    ∀ (parts : List Str) (cons : List Str),
      injectParts table parts cons = (parts, cons) ∨
      parts.flatten.length < ((injectParts table parts cons).1).flatten.length := by
  intro parts
  induction parts with
  | nil =>
      intro cons
      left
      rfl
  | cons p ps ih =>
      intro cons
      rw [injectParts]
      by_cases hp : isProtH3 p
      · simp only [hp, if_true]
        rcases ih cons with h | h
        · left
          rw [h]
        · right
          simp only [List.flatten_cons, List.length_append]
          omega
      · simp only [hp, if_false, Bool.false_eq_true]
        rcases injectPart_same_or_longer table p cons with h | h
        · rw [h]
          simp only []
          rcases ih cons with h2 | h2
          · left
            rw [h2]
          · right
            simp only [List.flatten_cons, List.length_append]
            omega
        · right
          simp only [List.flatten_cons, List.length_append]
          have h2 := injectParts_flatten_ge table ps (injectPart table p cons).2
          omega

theorem internalStep_snd_suffix (e : Str × Str) (acc : Str × List Str) :
    ∃ l, (internalStep e acc).2 = l ++ acc.2 := by
  obtain ⟨cur, cons⟩ := acc
  by_cases hm : lows e.1 ∈ cons
  · exact ⟨[], by simp [internalStep_mem hm]⟩
  · cases hhit : (replGo true (internalAnchor e.2) e.1 [] cur).2 with
    | false => exact ⟨[], by simp [internalStep_nohit hm hhit]⟩
    | true => exact ⟨[lows e.1], by simp [internalStep_hit hm hhit]⟩

theorem foldl_internalStep_snd_suffix (table : List (Str × Str)) :
    ∀ acc : Str × List Str,
      ∃ l, (table.foldl (fun a e => internalStep e a) acc).2 = l ++ acc.2 := by
  induction table with
  | nil =>
      intro acc
      exact ⟨[], by simp⟩
  | cons e es ih =>
      intro acc
      simp only [List.foldl_cons]
      obtain ⟨l1, h1⟩ := internalStep_snd_suffix e acc
      obtain ⟨l2, h2⟩ := ih (internalStep e acc)
      exact ⟨l2 ++ l1, by rw [h2, h1, List.append_assoc]⟩

theorem injectPart_snd_suffix (table : List (Str × Str)) (part : Str) (cons : List Str) :
    ∃ l, (injectPart table part cons).2 = l ++ cons := by
  unfold injectPart
  exact foldl_internalStep_snd_suffix table (part, cons)

theorem injectParts_snd_suffix (table : List (Str × Str)) :
    ∀ (parts : List Str) (cons : List Str), ∃ l, (injectParts table parts cons).2 = l ++ cons := by
  intro parts
  induction parts with
  | nil =>
      intro cons
      exact ⟨[], by simp [injectParts]⟩
  | cons p ps ih =>
      intro cons
      rw [injectParts]
      by_cases hp : isProtH3 p
      · simp only [hp, if_true]
        exact ih cons
      · simp only [hp, if_false, Bool.false_eq_true]
        obtain ⟨l1, h1⟩ := injectPart_snd_suffix table p cons
        obtain ⟨l2, h2⟩ := ih (injectPart table p cons).2
        exact ⟨l2 ++ l1, by rw [h2, h1, List.append_assoc]⟩

theorem injectPart_fix_counts :
    ∀ (table : List (Str × Str)) (part : Str), injectPart table part [] = (part, []) →
      ∀ e ∈ table, countIC true e.1 [] part = 0 := by
  intro table
  induction table with
  | nil =>
      intro part _ e he
      simp at he
  | cons e0 es ih =>
      intro part h e he
      unfold injectPart at h
      simp only [List.foldl_cons] at h
      cases hhit : (replGo true (internalAnchor e0.2) e0.1 [] part).2 with
      | true =>
          exfalso
          rw [internalStep_hit (by simp) hhit] at h
          obtain ⟨l, hl⟩ :=
            foldl_internalStep_snd_suffix es
              ((replGo true (internalAnchor e0.2) e0.1 [] part).1, [lows e0.1])
          rw [h] at hl
          simp at hl
      | false =>
          rw [internalStep_nohit (by simp) hhit] at h
          rcases List.mem_cons.mp he with h2 | h2
          · subst h2
            exact count_zero_of_replGo_miss true (internalAnchor e.2) e.1 part [] hhit
          · exact ih part h e h2

theorem injectParts_fix_counts (table : List (Str × Str)) :
    ∀ parts : List Str, injectParts table parts [] = (parts, []) →
      ∀ p ∈ parts, isProtH3 p = false → ∀ e ∈ table, countIC true e.1 [] p = 0 := by
  intro parts
  induction parts with
  | nil =>
      intro _ p hp
      simp at hp
  | cons q ps ih =>
      intro h p hp hprot e he
      rw [injectParts] at h
      by_cases hq : isProtH3 q
      · simp only [hq, if_true] at h
        have hh1 := congrArg Prod.fst h
        have hh2 := congrArg Prod.snd h
        simp only [] at hh1 hh2
        have hh1b : (injectParts table ps []).1 = ps := by
          have := congrArg List.tail hh1
          simpa using this
        have hrec : injectParts table ps [] = (ps, []) := Prod.ext hh1b hh2
        rcases List.mem_cons.mp hp with h2 | h2
        · subst h2
          rw [hprot] at hq
          simp at hq
        · exact ih hrec p h2 hprot e he
      · simp only [hq, if_false, Bool.false_eq_true] at h
        have hh1 := congrArg Prod.fst h
        have hh2 := congrArg Prod.snd h
        simp only [] at hh1 hh2
        have hq1 : (injectPart table q []).1 = q := by
          have := congrArg List.head? hh1
          simpa using this
        have hps1 : (injectParts table ps (injectPart table q []).2).1 = ps := by
          have := congrArg List.tail hh1
          simpa using this
        obtain ⟨l, hl⟩ := injectParts_snd_suffix table ps (injectPart table q []).2
        rw [hl] at hh2
        have hc1 : (injectPart table q []).2 = [] := (List.append_eq_nil.mp hh2).2
        have hqfix : injectPart table q [] = (q, []) := Prod.ext hq1 hc1
        rcases List.mem_cons.mp hp with h2 | h2
        · subst h2
          exact injectPart_fix_counts table p hqfix e he
        · have hrec : injectParts table ps [] = (ps, []) := by
            have hpair : injectParts table ps (injectPart table q []).2 = (ps, []) := by
              apply Prod.ext hps1
              rw [hl]
              exact hh2
            rw [hc1] at hpair
            exact hpair
          exact ih hrec p h2 hprot e he

theorem injectInternal_fix {table : List (Str × Str)} {content : Str}
    (h : inject_internal_links table content = content) :
    ∀ e ∈ table, internalTotal true e.1 content = 0 := by
  intro e he
  have hsplit : (splitByH3 content).flatten = content := splitByH3_flatten content
  rcases injectParts_same_or_longer table (splitByH3 content) [] with hfix | hlt
  · have hcounts := injectParts_fix_counts table (splitByH3 content) hfix
    unfold internalTotal
    rw [List.sum_eq_zero_iff]
    intro x hx
    simp only [List.mem_map] at hx
    obtain ⟨p, hp, rfl⟩ := hx
    unfold internalPartCount
    by_cases hprot : isProtH3 p
    · simp [hprot]
    · simp only [hprot, if_false, Bool.false_eq_true]
      exact hcounts p hp (by simpa using hprot) e he
  · exfalso
    unfold inject_internal_links at h
    have hlen := congrArg List.length h
    rw [hsplit] at hlt
    have hcl : content.length < ((injectParts table (splitByH3 content) []).1).flatten.length :=
      hlt
    omega

/-- C3 (amended): a second run of `inject_internal_links` on its own output
adds zero additional anchors — returns that output byte-for-byte unchanged —
if and only if no guarded whole-word match of any configured phrase remains
in the rewritable segments of that output; in general the `href="` guard
only suppresses a match immediately following `href="` (the URL text right
after the attribute opening), so a second run can double-wrap an
already-linked phrase, matching it inside the injected URL or the visible
anchor text. -/
theorem C3_second_pass_no_guarded_match (table : List (Str × Str)) (content : Str) :
    inject_internal_links table (inject_internal_links table content) =
      inject_internal_links table content ↔
    ∀ e ∈ table, internalTotal true e.1 (inject_internal_links table content) = 0 := by
  constructor
  · intro h
    exact injectInternal_fix h
  · intro h
    exact injectInternal_noop h

/-- C3 counterexample: with the table `arsenal → https://arsenal.example/`,
the first pass wraps `Arsenal` in one anchor; running the pass again on that
output matches `arsenal` inside the injected URL (not blocked by the
`href="` look-behind, which only inspects the six preceding characters) and
wraps it in a second, nested anchor: the second pass produces one additional
anchor for the same phrase set instead of zero. -/
theorem C3_counterexample :
    countSub (("<a href=").data)
        (inject_internal_links [(("arsenal").data, ("https://arsenal.example/").data)]
          (("Arsenal win").data)) = 1 ∧
    countSub (("<a href=").data)
        (inject_internal_links [(("arsenal").data, ("https://arsenal.example/").data)]
          (inject_internal_links [(("arsenal").data, ("https://arsenal.example/").data)]
            (("Arsenal win").data))) = 2 ∧
    inject_internal_links [(("arsenal").data, ("https://arsenal.example/").data)]
        (inject_internal_links [(("arsenal").data, ("https://arsenal.example/").data)]
          (("Arsenal win").data)) ≠
      inject_internal_links [(("arsenal").data, ("https://arsenal.example/").data)]
        (("Arsenal win").data) := by
  refine ⟨by decide, by decide, by decide⟩

theorem C3_witness :
    inject_internal_links [(("arsenal").data, ("https://a.example/").data)]
        (inject_internal_links [(("arsenal").data, ("https://a.example/").data)]
          (("<h3>Arsenal</h3>").data)) =
      inject_internal_links [(("arsenal").data, ("https://a.example/").data)]
        (("<h3>Arsenal</h3>").data) :=
  (C3_second_pass_no_guarded_match [(("arsenal").data, ("https://a.example/").data)]
    (("<h3>Arsenal</h3>").data)).mpr
    (by
      intro e he
      simp only [List.mem_singleton] at he
      subst he
      decide)

/-- C4: protected segments are never mutated by either injection pass: for
content whose phrase occurrences all lie inside protected `<h3>` blocks the
internal pass returns the content byte-for-byte unchanged; each pass carries
every protected segment of its own segmentation (heading blocks for the
internal pass; heading blocks and existing `<a ...>...</a>` blocks for the
external pass, so the external pass never rewrites text inside an existing
anchor block) into the output unchanged; an empty link table or empty
content returns the content unchanged. -/
theorem C4_protected_segments :
    (∀ (content k u : Str),
       (∀ p ∈ splitByH3 content, isProtH3 p = false → countIC false k [] p = 0) →
       inject_internal_links [(k, u)] content = content) ∧
    (∀ (table : List (Str × Str)) (content : Str), ∃ outParts : List Str,
       inject_internal_links table content = outParts.flatten ∧
       List.Forall₂ (fun a b => isProtH3 a = true → b = a) (splitByH3 content) outParts) ∧
    (∀ (table : List (Str × Str)) (fol : List Str) (content : Str), ∃ outParts : List Str,
       inject_external_links table fol content = outParts.flatten ∧
       List.Forall₂ (fun a b => isProtExt a = true → b = a) (splitByExtern content) outParts) ∧
    (∀ content : Str, inject_internal_links [] content = content) ∧
    (∀ (fol : List Str) (content : Str), inject_external_links [] fol content = content) ∧
    (∀ table : List (Str × Str), inject_internal_links table [] = []) ∧
    (∀ (table : List (Str × Str)) (fol : List Str), inject_external_links table fol [] = []) := by
  refine ⟨?_, ?_, ?_, ?_, ?_, ?_, ?_⟩
  · intro content k u h
    apply injectInternal_noop
    intro e he
    simp only [List.mem_singleton] at he
    subst he
    apply internalTotal_true_zero
    unfold internalTotal
    rw [List.sum_eq_zero_iff]
    intro x hx
    simp only [List.mem_map] at hx
    obtain ⟨p, hp, rfl⟩ := hx
    unfold internalPartCount
    by_cases hprot : isProtH3 p
    · simp [hprot]
    · simp only [hprot, if_false, Bool.false_eq_true]
      exact h p hp (by simpa using hprot)
  · intro table content
    exact ⟨(injectParts table (splitByH3 content) []).1, rfl,
      injectParts_protected (splitByH3 content) []⟩
  · intro table fol content
    exact ⟨(injectPartsExt fol table (splitByExtern content) []).1, rfl,
      injectPartsExt_protected (splitByExtern content) []⟩
  · intro content
    exact injectInternal_noop (fun e he => absurd he (by simp))
  · intro fol content
    exact injectExternal_noop (fun e he => absurd he (by simp))
  · intro table
    exact injectInternal_noop (fun e he => internalTotal_nil true e.1)
  · intro table fol
    exact injectExternal_noop (fun e he => extTotal_nil e.1)

theorem C4_witness :
    inject_internal_links [(("arsenal").data, ("https://a.example/").data)]
        (("<h3>Arsenal</h3><p>news</p>").data) = ("<h3>Arsenal</h3><p>news</p>").data ∧
    inject_internal_links [] (("Arsenal news").data) = ("Arsenal news").data :=
  ⟨C4_protected_segments.1 (("<h3>Arsenal</h3><p>news</p>").data) (("arsenal").data)
      (("https://a.example/").data) (by decide),
   C4_protected_segments.2.2.2.1 (("Arsenal news").data)⟩

/-- C10 (amended): both injection passes are insertion-only up to iteration:
the output is obtained from the input by a finite sequence of anchor-wrap
insertions, each wrapping a contiguous substring of the intermediate string
in an opening `<a ...>` tag and a closing `</a>` tag; no character of the
input is deleted, reordered, or rewritten (undoing the wrap steps innermost
first recovers the input).  Because a later insertion can land inside the
text of an earlier inserted wrapper, the single-shot non-overlapping
decomposition asserted by the claim does not hold in general. -/
theorem C10_insertion_only :
    (∀ (table : List (Str × Str)) (content : Str),
       Relation.ReflTransGen WrapStep content (inject_internal_links table content)) ∧
    (∀ (table : List (Str × Str)) (fol : List Str) (content : Str),
       Relation.ReflTransGen WrapStep content (inject_external_links table fol content)) :=
  ⟨rtg_inject_internal, rtg_inject_external⟩

/-- The claim's single-shot reading of insertion-only: the output is the
input with zero or more non-overlapping insertions of an opening `<a ...>`
tag and a closing `</a>` tag around stretches of the original text, so that
deleting every inserted wrapper recovers the input. -/
inductive FlatWraps : Str → Str → Prop where
  | nil : FlatWraps [] []
  | copy (c : Char) {s t : Str} : FlatWraps s t → FlatWraps (c :: s) (c :: t)
  | wrap (o mid : Str) {s t : Str} : OpenTagA o → FlatWraps s t →
      FlatWraps (mid ++ s) (o ++ mid ++ closeATag ++ t)

theorem flatWraps_head {s t : Str} (h : FlatWraps s t) :
    (s = [] ∧ t = []) ∨
    (∃ c s2 t2, s = c :: s2 ∧ t = c :: t2) ∨
    (∃ rest, t = '<' :: 'a' :: ' ' :: rest) := by
  cases h with
  | nil => exact Or.inl ⟨rfl, rfl⟩
  | copy c h2 => exact Or.inr (Or.inl ⟨c, _, _, rfl, rfl⟩)
  | wrap o mid ho h2 =>
      rename_i s2 t2
      right; right
      obtain ⟨inner, rfl⟩ := ho
      exact ⟨(inner ++ ['>']) ++ mid ++ closeATag ++ t2, by simp⟩

/-- C10 counterexample: on content `q` with table
`q → u, a → v`, the internal pass first wraps `q`, then the second table
entry matches the letter `a` inside the just-inserted opening tag itself,
producing `<<a href="v">a</a> href="u">q</a>` — an output that is not the
input with non-overlapping anchor wrappers around original text: no flat
decomposition exists, since the output begins neither with an `<a ...>` tag
nor with the original character `q`. -/
theorem C10_counterexample :
    inject_internal_links [(("q").data, ("u").data), (("a").data, ("v").data)] (("q").data) =
      ("<<a href=\"v\">a</a> href=\"u\">q</a>").data ∧
    ¬ FlatWraps (("q").data)
        (inject_internal_links [(("q").data, ("u").data), (("a").data, ("v").data)]
          (("q").data)) := by
  have he : inject_internal_links [(("q").data, ("u").data), (("a").data, ("v").data)]
      (("q").data) = ("<<a href=\"v\">a</a> href=\"u\">q</a>").data := by decide
  refine ⟨he, ?_⟩
  rw [he]
  intro h
  rcases flatWraps_head h with ⟨h1, h2⟩ | ⟨c, s2, t2, h1, h2⟩ | ⟨rest, h2⟩
  · exact absurd h2 (by decide)
  · have h1b : 'q' :: ([] : Str) = c :: s2 := h1
    have h2b : '<' :: (("<a href=\"v\">a</a> href=\"u\">q</a>").data) = c :: t2 := h2
    injection h1b with e1 e1t
    injection h2b with e2 e2t
    rw [← e1] at e2
    exact absurd e2 (by decide)
  · have h2b : '<' :: '<' :: (("a href=\"v\">a</a> href=\"u\">q</a>").data) =
        '<' :: 'a' :: ' ' :: rest := h2
    injection h2b with e1 h3
    injection h3 with e2 h4
    exact absurd e2 (by decide)
